import Mathlib

/-!
A verification development for the Scheme interpreter core in
`Project-Scheme/scheme.py`: environment frames, the three procedure
variants, the special-form handlers, and the trampolined evaluator
(`scheme_optimized_eval`).  Python's mutable `Frame` objects are modelled
as an explicit store (`List Frame`) indexed by frame ids, Python's
`SchemeError`s (distinguished by their messages) and uncaught host
exceptions (`AttributeError`/`TypeError`) as an `Err` inductive, and the
interpreter's recursion as fuel-indexed executable functions returning
`Except Err`.
-/

set_option linter.unusedVariables false

namespace Scheme

/-- Modelled from the spec: the external primitive library supplies host
functions for arithmetic and comparison; we fix a small enumeration of them
(the evaluator "does not know or care what the functions compute"). -/
inductive PrimOp where
  | add | sub | mul | lt | numEq
  deriving DecidableEq, Repr

/-- The s-expression/value universe.  `num`/`str`/`boolean`/`sym`/`nil`/`pair`
mirror the external reader's data (`Pair`, `nil`, Python ints/strings/bools);
`undef` is Python's `None` (the "no value" marker); `primitive`, `lambdaP`
and `muP` are the three procedure classes of `scheme.py`
(`PrimitiveProcedure`, `LambdaProcedure`, `MuProcedure`).  A
`LambdaProcedure` stores its captured defining frame as a frame id into the
store; a `MuProcedure` stores no frame. -/
inductive SVal where
  | num : Int → SVal
  | str : String → SVal
  | boolean : Bool → SVal
  | sym : String → SVal
  | nil : SVal
  | pair : SVal → SVal → SVal
  | primitive : PrimOp → String → SVal
  | lambdaP : SVal → SVal → Nat → SVal
  | muP : SVal → SVal → SVal
  | undef : SVal
  deriving DecidableEq, Repr

/-- The result of one evaluator call: either a plain value, or an
`Evaluate(expr, env)` suspension (class `Evaluate` in `scheme.py`),
pairing a not-yet-evaluated expression with its frame id. -/
inductive Res where
  | val : SVal → Res
  | suspend : SVal → Nat → Res
  deriving DecidableEq, Repr

/-- Failure causes.  Constructors tagged with the `SchemeError` message they
embed; `pyError` is an uncaught host (Python) exception such as
`AttributeError` on `nil.first` or an unhashable-key `TypeError` — not a
Scheme-level error; `outOfFuel` is the modelling artifact standing for
native recursion that has not yet terminated within the given fuel. -/
inductive Err where
  | unboundIdentifier : String → Err  -- "unknown identifier: ..."
  | malformedList : Err               -- "malformed list: ..."
  | notCallable : Err                 -- "cannot call: ..."
  | arityMismatch : Err               -- bare SchemeError in Frame.make_child_frame
  | badlyFormed : Err                 -- check_form: "badly formed expression"
  | tooFewOperands : Err              -- check_form: "too few operands in form"
  | tooManyOperands : Err             -- check_form: "too many operands in form"
  | malformedParams : Err             -- bare SchemeError in check_formals
  | misplacedElse : Err               -- do_cond_form: "else must be last"
  | nonSymbolDefine : Err             -- do_define_form: "Non-symbol: ..."
  | badBindings : Err                 -- make_let_frame: "bad bindings list in let form"
  | hostError : Err                   -- PrimitiveProcedure.apply wraps TypeError in SchemeError
  | pyError : Err
  | outOfFuel : Err
  deriving DecidableEq, Repr

/-- Whether a failure is a Scheme-level error (a `SchemeError` raised by the
interpreter), as opposed to an uncaught host exception or fuel exhaustion. -/
def Err.isSchemeError : Err → Bool
  | .pyError => false
  | .outOfFuel => false
  | _ => true

/-- Evaluation mode: `.plain` is the non-trampolined recursive definition of
`scheme_eval` (lines 11–37), whose internal calls resolve to itself; `.opt`
is `scheme_optimized_eval` (lines 482–511), the definition the module
rebinds `scheme_eval` to.  The special-form handlers call the module-level
`scheme_eval`, so the mode is threaded through them. -/
inductive Mode where
  | plain | opt
  deriving DecidableEq, Repr

/-- An environment frame: a mapping from symbols to values plus an optional
parent frame id.  `define` prepends, and lookup takes the first match, which
matches Python dict overwrite semantics. -/
structure Frame where
  bindings : List (String × SVal)
  parent : Option Nat
  deriving DecidableEq, Repr

/-- The heap of `Frame` objects; frame ids index into it.  Frames created by
`make_child_frame` are appended, so a child's parent id is always smaller
than its own id. -/
abbrev Store := List Frame

/-- `scheme_symbolp` (external predicate): symbols are interned names. -/
def isSymbolV : SVal → Bool
  | .sym _ => true
  | _ => false

/-- The name of a symbol (only used under an `isSymbolV` guard). -/
def symName : SVal → String
  | .sym s => s
  | _ => ""

/-- Modelled from the spec: `self_evaluating` delegates to the external
classification `scheme_atomp`/`scheme_stringp` plus `expr is None`; the spec
lists "numbers, strings, booleans, the 'no value' marker". -/
def selfEvaluating : SVal → Bool
  | .num _ => true
  | .str _ => true
  | .boolean _ => true
  | .undef => true
  | _ => false

/-- Modelled from the spec: `scheme_listp` (external) — a proper list is a
chain of Pairs terminated by `nil`. -/
def isListV : SVal → Bool
  | .nil => true
  | .pair _ d => isListV d
  | _ => false

/-- Python `len` on the reader's list structure (`Pair.__len__`/`nil`):
the length of a proper list, and a `TypeError` (`none`) on anything else. -/
def slen : SVal → Option Nat
  | .nil => some 0
  | .pair _ d => (slen d).map (· + 1)
  | _ => none

/-- Modelled from the spec: `scheme_true` (external) — everything except the
designated false value is true.  On a `Res`, an `Evaluate` object is a
Python object and hence truthy. -/
def truthyRes : Res → Bool
  | .val (.boolean false) => false
  | _ => true

/-- `scheme_false` on a `Res` (`val is False`). -/
def falsyRes (r : Res) : Bool := !(truthyRes r)

/-- `scheme_procedurep`: `isinstance(x, Procedure)`. -/
def isProcV : SVal → Bool
  | .primitive _ _ => true
  | .lambdaP _ _ _ => true
  | .muP _ _ => true
  | _ => false

/-- First-match association lookup, `symbol in self.bindings` +
`self.bindings[symbol]`. -/
def assocFind : List (String × SVal) → String → Option SVal
  | [], _ => none
  | (k, v) :: rest, s => if k = s then some v else assocFind rest s

/-- `Frame.lookup`, fuel-bounded: search own bindings, else delegate to the
parent, else raise "unknown identifier".  In every store the evaluator
builds, parent ids strictly decrease, so `fid + 1` steps suffice. -/
def lookupAux : Nat → Store → Nat → String → Except Err SVal
  | 0, _, _, _ => .error .outOfFuel
  | n + 1, st, fid, s =>
    match st[fid]? with
    | none => .error .outOfFuel
    | some f =>
      match assocFind f.bindings s with
      | some v => .ok v
      | none =>
        match f.parent with
        | some p => lookupAux n st p s
        | none => .error (.unboundIdentifier s)

/-- `Frame.lookup` on the frame `fid` of store `st`. -/
def lookup (st : Store) (fid : Nat) (s : String) : Except Err SVal :=
  lookupAux (fid + 1) st fid s

/-- `Frame.define`: insert or overwrite a binding in this frame only. -/
def defineBind (st : Store) (fid : Nat) (s : String) (v : SVal) : Store :=
  match st[fid]? with
  | some f => st.set fid ⟨(s, v) :: f.bindings, f.parent⟩
  | none => st

/-- The Scheme-list-to-Python-list conversion loop at the top of
`PrimitiveProcedure.apply` (`while args is not nil: append args.first`). -/
def toHostList : SVal → Option (List SVal)
  | .nil => some []
  | .pair a d => (toHostList d).map (a :: ·)
  | _ => none

/-- Numeric projection used by the modelled primitives. -/
def asNum : SVal → Option Int
  | .num i => some i
  | _ => none

/-- All-numbers projection for a host argument list. -/
def allNums : List SVal → Option (List Int)
  | [] => some []
  | a :: rest => do
    let i ← asNum a
    let is ← allNums rest
    some (i :: is)

/-- Modelled from the spec: the host functions of the external primitive
library (arithmetic, comparisons); a host-level argument-type/arity failure
is signalled by `.error ()`. -/
def primSem : PrimOp → List SVal → Except Unit SVal
  | .add, args =>
    match allNums args with
    | some is => .ok (.num (is.foldl (· + ·) 0))
    | none => .error ()
  | .mul, args =>
    match allNums args with
    | some is => .ok (.num (is.foldl (· * ·) 1))
    | none => .error ()
  | .sub, args =>
    match allNums args with
    | some (i :: is) => .ok (.num (is.foldl (· - ·) i))
    | _ => .error ()
  | .lt, args =>
    match allNums args with
    | some [i, j] => .ok (.boolean (i < j))
    | _ => .error ()
  | .numEq, args =>
    match allNums args with
    | some [i, j] => .ok (.boolean (i = j))
    | _ => .error ()

/-- The binding loop of `Frame.make_child_frame`
(`while formals != nil and vals != nil: child.define(...)`).  Each `define`
prepends, so the resulting association list is the zip in reverse order
(first-match lookup then realizes the dict's overwrite semantics).  A `Pair`
in formal position is an unhashable dict key (`TypeError`, uncaught); any
non-symbol formal reaching this loop has a `Pair` at or before it, because
`check_formals` validates every element up to the first nested pair. -/
def bindPairs : SVal → SVal → List (String × SVal) → Except Err (List (String × SVal))
  | .pair (.sym s) fs, .pair v vs, acc => bindPairs fs vs ((s, v) :: acc)
  | .pair _ _, .pair _ _, _ => .error .pyError
  | _, _, acc => .ok acc

/-- `Frame.make_child_frame(formals, vals)`: compare `len(formals)` with
`len(vals)` (a `TypeError` on improper lists), raise a bare `SchemeError`
(arity mismatch) if they differ, else bind positionally in a new frame whose
parent is `self`.  Returns the new frame's id and the extended store. -/
def makeChildFrame (st : Store) (parent : Nat) (formals vals : SVal) :
    Except Err (Nat × Store) :=
  match slen formals, slen vals with
  | some lf, some lv =>
    if lf = lv then
      (bindPairs formals vals []).map
        (fun bs => (st.length, st ++ [⟨bs, some parent⟩]))
    else .error .arityMismatch
  | _, _ => .error .pyError

/-- `LambdaProcedure.make_call_frame(args, env)`: a child of the captured
defining frame `self.env`; the calling frame `env` is ignored. -/
def lambdaMakeCallFrame (lamFormals : SVal) (lamEnv : Nat) (args : SVal)
    (env : Nat) (st : Store) : Except Err (Nat × Store) :=
  makeChildFrame st lamEnv lamFormals args

/-- `MuProcedure.make_call_frame(args, env)`: a child of the calling frame
`env` passed at call time (dynamic scope). -/
def muMakeCallFrame (muFormals : SVal) (args : SVal) (env : Nat)
    (st : Store) : Except Err (Nat × Store) :=
  makeChildFrame st env muFormals args

/-- `check_form(expr, min, max)`: `expr` must be a proper list whose length
is at least `min` and at most `max` (`none` = no maximum). -/
def checkForm (expr : SVal) (min : Nat) (max : Option Nat) : Except Err Unit :=
  if !(isListV expr) then .error .badlyFormed
  else
    match slen expr with
    | none => .error .pyError
    | some length =>
      if length < min then .error .tooFewOperands
      else
        match max with
        | some m => if length > m then .error .tooManyOperands else .ok ()
        | none => .ok ()

/-- The loop of `check_formals`, with the accumulated `par` set.  When an
element is itself a `Pair`, the loop variable is redirected into that pair
(abandoning the rest of the outer list) after requiring `len >= 3` of it; a
`Pair` tested for membership in the set is unhashable (`TypeError`,
uncaught); a non-symbol element otherwise raises the bare `SchemeError`;
`formals.first` on a non-nil atom is an uncaught `AttributeError`. -/
def checkFormalsLoop : SVal → List String → Except Err Unit
  | .nil, _ => .ok ()
  | .pair hd tl, par =>
    match hd with
    | .pair h2 t2 =>
      match slen (.pair h2 t2) with
      | none => .error .pyError
      | some len =>
        if len < 3 then .error .malformedParams
        else
          match h2 with
          | .pair _ _ => .error .pyError
          | .sym s =>
            if s ∈ par then .error .malformedParams
            else checkFormalsLoop t2 (s :: par)
          | _ => .error .malformedParams
    | .sym s =>
      if s ∈ par then .error .malformedParams
      else checkFormalsLoop tl (s :: par)
    | _ => .error .malformedParams
  | _, _ => .error .pyError
termination_by structural f _ => f

/-- `check_formals(formals)`. -/
def check_formals (formals : SVal) : Except Err Unit :=
  checkFormalsLoop formals []

/-- `do_quote_form`: return the single argument unevaluated. -/
def doQuote (rest : SVal) : Except Err SVal := do
  checkForm rest 1 (some 1)
  match rest with
  | .pair e _ => .ok e
  | _ => .error .pyError

/-- `do_lambda_form`: validate the formals and close over the current
frame. -/
def doLambdaForm (rest : SVal) (env : Nat) : Except Err SVal := do
  checkForm rest 2 none
  match rest with
  | .pair formals body => do
    check_formals formals
    .ok (.lambdaP formals body env)
  | _ => .error .pyError

/-- `do_mu_form`: identical surface checks, but no captured frame. -/
def doMuForm (rest : SVal) : Except Err SVal := do
  checkForm rest 2 none
  match rest with
  | .pair formals body => do
    check_formals formals
    .ok (.muP formals body)
  | _ => .error .pyError

/-- Project a `Res` to a value where the interpreter stores it (a `define`
value, an argument value, a `let` binding value).  These positions are
produced by non-tail evaluation, which never yields a suspension (see
`seval_plain_no_suspend` and `seval_nontail_no_suspend`), so the error
branch is unreachable. -/
def asValue : Res → Except Err SVal
  | .val v => .ok v
  | .suspend _ _ => .error .pyError

/-- The keys of `SPECIAL_FORMS` (including the `mu` entry added later). -/
def specialFormNames : List String :=
  ["and", "begin", "cond", "define", "if", "lambda", "let", "or", "quote", "mu"]

/-- `scheme_symbolp(first) and first in SPECIAL_FORMS`. -/
def isSpecialForm : SVal → Bool
  | .sym s => s ∈ specialFormNames
  | _ => false

/-- Scheme-list append (used only to state theorems about clause lists). -/
def sappend : SVal → SVal → SVal
  | .nil, ys => ys
  | .pair x xs, ys => .pair x (sappend xs ys)
  | x, _ => x

/-- Length of a Scheme list as far as its pair spine reaches (used only to
state theorems). -/
def scount : SVal → Nat
  | .pair _ xs => scount xs + 1
  | _ => 0

/-- A Lean list of values as a Scheme list (used only to state theorems). -/
def listToS : List SVal → SVal
  | [] => .nil
  | v :: vs => .pair v (listToS vs)

end Scheme

namespace Scheme

set_option maxHeartbeats 2000000 in
mutual

/-- The evaluator.  In `.plain` mode this is `scheme_eval` (lines 11–37):
the optional tail argument is ignored and a combination is dispatched by
direct recursion.  In `.opt` mode this is `scheme_optimized_eval` (lines
482–511): a combination in tail position returns an `Evaluate` suspension,
and otherwise the trampoline loop (`tramp`) drives dispatch until a plain
value appears.  Symbols resolve via `Frame.lookup` and self-evaluating
expressions return themselves in both modes. -/
def seval : Nat → Mode → Bool → SVal → Nat → Store → Except Err (Res × Store)
  | 0, _, _, _, _, _ => .error .outOfFuel
  | n + 1, mode, tail, expr, env, st =>
    if isSymbolV expr then
      (lookup st env (symName expr)).map (fun v => (.val v, st))
    else if selfEvaluating expr then
      .ok (.val expr, st)
    else
      match mode with
      | .plain => dispatch n .plain expr env st
      | .opt =>
        if tail then .ok (.suspend expr env, st)
        else tramp n (.suspend expr env) st
termination_by structural n _ _ _ _ _ => n


/-- The `while isinstance(result, Evaluate)` loop of
`scheme_optimized_eval`: unwrap the suspension, re-run the combination
dispatch, and repeat until a plain value is produced. -/
def tramp : Nat → Res → Store → Except Err (Res × Store)
  | 0, _, _ => .error .outOfFuel
  | _ + 1, .val v, st => .ok (.val v, st)
  | n + 1, .suspend expr env, st => do
    let (r, st1) ← dispatch n .opt expr env st
    tramp n r st1
termination_by structural n _ _ => n


/-- The combination dispatch shared verbatim by `scheme_eval` (lines 26–35)
and the loop body of `scheme_optimized_eval` (lines 500–510): reject
non-lists, dispatch a special-form keyword to its handler, otherwise
evaluate the operator (non-tail), require a procedure, and evaluate the
call.  `nil` passes `scheme_listp` but `nil.first` is an uncaught
`AttributeError`; an `Evaluate` object in operator position is not a
`Procedure`, so `scheme_procedurep` fails. -/
def dispatch : Nat → Mode → SVal → Nat → Store → Except Err (Res × Store)
  | 0, _, _, _, _ => .error .outOfFuel
  | n + 1, mode, expr, env, st =>
    if !(isListV expr) then .error .malformedList
    else
      match expr with
      | .pair first rest =>
        if isSpecialForm first then
          doForm n mode (symName first) rest env st
        else do
          let (p, st1) ← seval n mode false first env st
          match p with
          | .val v =>
            if isProcV v then evalCall n mode v rest env st1
            else .error .notCallable
          | .suspend _ _ => .error .notCallable
      | _ => .error .pyError
termination_by structural n _ _ _ _ => n


/-- The `SPECIAL_FORMS` table: a fixed mapping from reserved symbols to
handlers (with the `mu` entry added after the table literal). -/
def doForm : Nat → Mode → String → SVal → Nat → Store → Except Err (Res × Store)
  | 0, _, _, _, _, _ => .error .outOfFuel
  | n + 1, mode, name, rest, env, st =>
    if name = "and" then doAnd n mode rest env st
    else if name = "begin" then doBegin n mode rest env st
    else if name = "cond" then doCond n mode rest env st
    else if name = "define" then doDefine n mode rest env st
    else if name = "if" then doIf n mode rest env st
    else if name = "lambda" then (doLambdaForm rest env).map (fun v => (.val v, st))
    else if name = "let" then doLet n mode rest env st
    else if name = "or" then doOr n mode rest env st
    else if name = "quote" then (doQuote rest).map (fun v => (.val v, st))
    else if name = "mu" then (doMuForm rest).map (fun v => (.val v, st))
    else .error .pyError
termination_by structural n _ _ _ _ _ => n


/-- `do_define_form`: `(define name expr)` evaluates `expr` (non-tail) and
binds `name`, returning the name; `(define (name . formals) body...)`
defines `name` to `do_lambda_form(Pair(formals, body))`; any other target
raises the "Non-symbol" error. -/
def doDefine : Nat → Mode → SVal → Nat → Store → Except Err (Res × Store)
  | 0, _, _, _, _ => .error .outOfFuel
  | n + 1, mode, exprs, env, st => do
    checkForm exprs 2 none
    match exprs with
    | .pair target drest =>
      match target with
      | .sym s => do
        checkForm exprs 2 (some 2)
        match drest with
        | .pair vexpr _ => do
          let (vres, st1) ← seval n mode false vexpr env st
          let v ← asValue vres
          .ok (.val (.sym s), defineBind st1 env s v)
        | _ => .error .pyError
      | .pair (.sym fname) formsRest =>
        match doLambdaForm (.pair formsRest drest) env with
        | .ok v => .ok (.val (.sym fname), defineBind st env fname v)
        | .error e => .error e
      | .pair _ _ => .error .nonSymbolDefine
      | _ => .error .nonSymbolDefine
    | _ => .error .pyError
termination_by structural n _ _ _ _ => n


/-- `do_begin_form`: at least one expression, then `eval_all`. -/
def doBegin : Nat → Mode → SVal → Nat → Store → Except Err (Res × Store)
  | 0, _, _, _, _ => .error .outOfFuel
  | n + 1, mode, exprs, env, st => do
    checkForm exprs 1 none
    evalAll n mode exprs env st
termination_by structural n _ _ _ _ => n


/-- `eval_all`: an empty sequence returns `None`; otherwise evaluate in
order via `evalSeq`. -/
def evalAll : Nat → Mode → SVal → Nat → Store → Except Err (Res × Store)
  | 0, _, _, _, _ => .error .outOfFuel
  | n + 1, mode, exprs, env, st =>
    match exprs with
    | .nil => .ok (.val .undef, st)
    | .pair first rest => evalSeq n mode first rest env st
    | _ => .error .pyError
termination_by structural n _ _ _ _ => n


/-- The loop of `eval_all`: evaluate every expression but the last for
effect (non-tail) and the last one with `tail=True`; advancing into a
non-list tail is an uncaught `AttributeError`. -/
def evalSeq : Nat → Mode → SVal → SVal → Nat → Store → Except Err (Res × Store)
  | 0, _, _, _, _, _ => .error .outOfFuel
  | n + 1, mode, first, rest, env, st =>
    match rest with
    | .nil => seval n mode true first env st
    | .pair f2 r2 => do
      let (_, st1) ← seval n mode false first env st
      evalSeq n mode f2 r2 env st1
    | _ => do
      let (_, st1) ← seval n mode false first env st
      .error .pyError
termination_by structural n _ _ _ _ _ => n


/-- `do_if_form`: evaluate the test (non-tail); a truthy test evaluates the
consequent in tail position, else a three-operand form evaluates the
alternative in tail position, else `None`. -/
def doIf : Nat → Mode → SVal → Nat → Store → Except Err (Res × Store)
  | 0, _, _, _, _ => .error .outOfFuel
  | n + 1, mode, exprs, env, st => do
    checkForm exprs 2 (some 3)
    match exprs with
    | .pair test rest => do
      let (pres, st1) ← seval n mode false test env st
      if truthyRes pres then
        match rest with
        | .pair conseq _ => seval n mode true conseq env st1
        | _ => .error .pyError
      else
        match slen exprs with
        | some 3 =>
          match rest with
          | .pair _ (.pair alt _) => seval n mode true alt env st1
          | _ => .error .pyError
        | _ => .ok (.val .undef, st1)
    | _ => .error .pyError
termination_by structural n _ _ _ _ => n


/-- `do_and_form`: the zero-argument form is `True`; `len` of an improper
operand chain is an uncaught `TypeError`. -/
def doAnd : Nat → Mode → SVal → Nat → Store → Except Err (Res × Store)
  | 0, _, _, _, _ => .error .outOfFuel
  | n + 1, mode, exprs, env, st =>
    match slen exprs with
    | none => .error .pyError
    | some 0 => .ok (.val (.boolean true), st)
    | some _ =>
      match exprs with
      | .pair first rest => andLoop n mode first rest env st
      | _ => .error .pyError
termination_by structural n _ _ _ _ => n


/-- The loop of `do_and_form`: evaluate operands left to right (non-tail),
returning `False` at the first falsy result; the last operand, if reached,
is evaluated in tail position. -/
def andLoop : Nat → Mode → SVal → SVal → Nat → Store → Except Err (Res × Store)
  | 0, _, _, _, _, _ => .error .outOfFuel
  | n + 1, mode, first, rest, env, st =>
    match rest with
    | .nil => seval n mode true first env st
    | .pair f2 r2 => do
      let (pres, st1) ← seval n mode false first env st
      if falsyRes pres then .ok (.val (.boolean false), st1)
      else andLoop n mode f2 r2 env st1
    | _ => do
      let (pres, st1) ← seval n mode false first env st
      if falsyRes pres then .ok (.val (.boolean false), st1)
      else .error .pyError
termination_by structural n _ _ _ _ _ => n


/-- `do_or_form`: the zero-argument form is `False`. -/
def doOr : Nat → Mode → SVal → Nat → Store → Except Err (Res × Store)
  | 0, _, _, _, _ => .error .outOfFuel
  | n + 1, mode, exprs, env, st =>
    match slen exprs with
    | none => .error .pyError
    | some 0 => .ok (.val (.boolean false), st)
    | some _ =>
      match exprs with
      | .pair first rest => orLoop n mode first rest env st
      | _ => .error .pyError
termination_by structural n _ _ _ _ => n


/-- The loop of `do_or_form`: evaluate operands left to right (non-tail),
returning the first truthy result; the last operand, if reached, is
evaluated in tail position. -/
def orLoop : Nat → Mode → SVal → SVal → Nat → Store → Except Err (Res × Store)
  | 0, _, _, _, _, _ => .error .outOfFuel
  | n + 1, mode, first, rest, env, st =>
    match rest with
    | .nil => seval n mode true first env st
    | .pair f2 r2 => do
      let (pres, st1) ← seval n mode false first env st
      if truthyRes pres then .ok (pres, st1)
      else orLoop n mode f2 r2 env st1
    | _ => do
      let (pres, st1) ← seval n mode false first env st
      if truthyRes pres then .ok (pres, st1)
      else .error .pyError
termination_by structural n _ _ _ _ _ => n


/-- `do_cond_form`: compute `num_clauses = len(expressions)` (`TypeError`
on an improper chain), then scan the clauses with a running index. -/
def doCond : Nat → Mode → SVal → Nat → Store → Except Err (Res × Store)
  | 0, _, _, _, _ => .error .outOfFuel
  | n + 1, mode, exprs, env, st =>
    match slen exprs with
    | none => .error .pyError
    | some nc => condLoop n mode nc 0 exprs env st
termination_by structural n _ _ _ _ => n


/-- The clause loop of `do_cond_form` (`nc` = the precomputed clause count,
`i` = the current index).  Each clause must be a proper list of length at
least 1; a non-final `else` head raises "else must be last", and a final
`else` head evaluates its body via `do_begin_form` (note: unconditionally —
the `test = True` assignment in the source is dead, and an `else` clause
with an empty body therefore fails `do_begin_form`'s "at least one operand"
check instead of returning `True`).  For other clauses, the test is
evaluated (non-tail): a truthy test with an empty body returns the test
value itself, a truthy test with a body evaluates it via `do_begin_form`,
and a falsy test moves to the next clause.  Falling off the end returns
`None`. -/
def condLoop : Nat → Mode → Nat → Nat → SVal → Nat → Store → Except Err (Res × Store)
  | 0, _, _, _, _, _, _ => .error .outOfFuel
  | n + 1, mode, nc, i, exprs, env, st =>
    match exprs with
    | .nil => .ok (.val .undef, st)
    | .pair clause rest => do
      checkForm clause 1 none
      match clause with
      | .pair chead cbody =>
        if chead = .sym "else" then
          if i < nc - 1 then .error .misplacedElse
          else doBegin n mode cbody env st
        else do
          let (tres, st1) ← seval n mode false chead env st
          if truthyRes tres then
            if cbody = .nil then .ok (tres, st1)
            else doBegin n mode cbody env st1
          else condLoop n mode nc (i + 1) rest env st1
      | _ => .error .pyError
    | _ => .error .pyError
termination_by structural n _ _ _ _ _ _ => n


/-- `do_let_form`: build the let frame from the binding list, then evaluate
the body as a sequence in it. -/
def doLet : Nat → Mode → SVal → Nat → Store → Except Err (Res × Store)
  | 0, _, _, _, _ => .error .outOfFuel
  | n + 1, mode, exprs, env, st => do
    checkForm exprs 2 none
    match exprs with
    | .pair bindings body => do
      let (letEnv, st1) ← makeLetFrame n mode bindings env st
      evalAll n mode body letEnv st1
    | _ => .error .pyError
termination_by structural n _ _ _ _ => n


/-- `make_let_frame`: the binding list itself must be a proper list, then
the per-binding loop runs. -/
def makeLetFrame : Nat → Mode → SVal → Nat → Store → Except Err (Nat × Store)
  | 0, _, _, _, _ => .error .outOfFuel
  | n + 1, mode, bindings, env, st =>
    if !(isListV bindings) then .error .badBindings
    else letLoop n mode bindings .nil .nil env st
termination_by structural n _ _ _ _ => n


/-- The loop of `make_let_frame`: each entry passes `check_form(entry, 0,
2)`, then `entry.first` is prepended to the formals and
`scheme_eval(entry.second.first, env)` — evaluated in the outer frame
`env` — to the values; accessing the missing slot of a `()` or `(x)` entry
is an uncaught `AttributeError`.  When the entries are exhausted,
`check_formals` runs on the accumulated formals and the child frame of the
outer frame is built. -/
def letLoop : Nat → Mode → SVal → SVal → SVal → Nat → Store → Except Err (Nat × Store)
  | 0, _, _, _, _, _, _ => .error .outOfFuel
  | n + 1, mode, bindings, formals, vals, env, st =>
    match bindings with
    | .nil => do
      check_formals formals
      makeChildFrame st env formals vals
    | .pair start brest => do
      checkForm start 0 (some 2)
      match start with
      | .pair s srest =>
        match srest with
        | .pair e _ => do
          let (vres, st1) ← seval n mode false e env st
          let v ← asValue vres
          letLoop n mode brest (.pair s formals) (.pair v vals) env st1
        | _ => .error .pyError
      | _ => .error .pyError
    | _ => .error .pyError
termination_by structural n _ _ _ _ _ _ => n


/-- `Procedure.eval_call`: evaluate the argument expressions (non-tail, via
`Pair.map`) and apply via `scheme_apply`. -/
def evalCall : Nat → Mode → SVal → SVal → Nat → Store → Except Err (Res × Store)
  | 0, _, _, _, _, _ => .error .outOfFuel
  | n + 1, mode, proc, argExprs, env, st => do
    let (args, st1) ← evalArgs n mode argExprs env st
    applyProc n mode proc args env st1
termination_by structural n _ _ _ _ _ => n


/-- `arg_exprs.map(lambda operand: scheme_eval(operand, env))`: evaluate
each operand left to right (non-tail), rebuilding the Scheme list;
`Pair.map` raises `TypeError` ("ill-formed list") on an improper chain. -/
def evalArgs : Nat → Mode → SVal → Nat → Store → Except Err (SVal × Store)
  | 0, _, _, _, _ => .error .outOfFuel
  | n + 1, mode, exprs, env, st =>
    match exprs with
    | .nil => .ok (.nil, st)
    | .pair a d => do
      let (r, st1) ← seval n mode false a env st
      let v ← asValue r
      let (vs, st2) ← evalArgs n mode d env st1
      .ok (.pair v vs, st2)
    | _ => .error .pyError
termination_by structural n _ _ _ _ => n


/-- `scheme_apply` plus the per-variant `apply`: re-check `scheme_procedurep`;
a primitive converts its Scheme argument list to host arguments and wraps a
host `TypeError` in a `SchemeError`; a user-defined procedure builds its
call frame via the variant's `make_call_frame` rule (captured frame for
`LambdaProcedure`, calling frame for `MuProcedure`) and evaluates its body
via `eval_all`. -/
def applyProc : Nat → Mode → SVal → SVal → Nat → Store → Except Err (Res × Store)
  | 0, _, _, _, _, _ => .error .outOfFuel
  | n + 1, mode, proc, args, env, st =>
    match proc with
    | .primitive op _ =>
      match toHostList args with
      | none => .error .pyError
      | some hargs =>
        match primSem op hargs with
        | .ok v => .ok (.val v, st)
        | .error _ => .error .hostError
    | .lambdaP formals body defEnv => do
      let (callEnv, st1) ← lambdaMakeCallFrame formals defEnv args env st
      evalAll n mode body callEnv st1
    | .muP formals body => do
      let (callEnv, st1) ← muMakeCallFrame formals args env st
      evalAll n mode body callEnv st1
    | _ => .error .notCallable
termination_by structural n _ _ _ _ _ => n

end

end Scheme

namespace Scheme

/-- Decidable equality for `Except` results, so that concrete runs of the
embedded interpreter can be checked by `decide`. -/
instance instDecidableEqExcept {e a : Type} [DecidableEq e] [DecidableEq a] :
    DecidableEq (Except e a) := fun x y =>
  match x, y with
  | .ok u, .ok v =>
    if h : u = v then .isTrue (by rw [h]) else .isFalse (by simp [h])
  | .error u, .error v =>
    if h : u = v then .isTrue (by rw [h]) else .isFalse (by simp [h])
  | .ok _, .error _ => .isFalse (by simp)
  | .error _, .ok _ => .isFalse (by simp)

/-- The cdr of the let form `(let ((x 5) (y x)) y)`. -/
def letXYArgs : SVal :=
  .pair
    (.pair (.pair (.sym "x") (.pair (.num 5) .nil))
      (.pair (.pair (.sym "y") (.pair (.sym "x") .nil)) .nil))
    (.pair (.sym "y") .nil)

/-- Processing of a prefix of `cond` clauses that all fall through: each is
a proper clause whose head is not `else` and whose test evaluates to the
false value, threading the store and consuming one step of `condLoop` fuel
per clause. -/
inductive Falls (mode : Mode) (env : Nat) : Nat → SVal → Store → Store → Prop where
  | done (k : Nat) (st : Store) : Falls mode env k .nil st st
  | step (k : Nat) (chead cbody rest : SVal) (st st1 st2 : Store) (tres : Res) :
      isListV cbody = true →
      chead ≠ .sym "else" →
      seval k mode false chead env st = .ok (tres, st1) →
      truthyRes tres = false →
      Falls mode env k rest st1 st2 →
      Falls mode env (k + 1) (.pair (.pair chead cbody) rest) st st2

/-- The module-level name `scheme_eval` after line 516
(`scheme_eval = scheme_optimized_eval`): every caller resolves to the
trampolined evaluator. -/
def scheme_eval (n : Nat) (tail : Bool) (expr : SVal) (env : Nat) (st : Store) :
    Except Err (Res × Store) :=
  seval n .opt tail expr env st

/-- Correspondence between a finished plain-mode evaluation and a single
optimized-mode step: the step either produced the same value and store, or
a suspension whose plain-mode dispatch (at strictly smaller fuel) finishes
with that value and store. -/
def OLink (f : Nat) (v : SVal) (st1 : Store) (out : Res × Store) : Prop :=
  out = (.val v, st1)
  ∨ ∃ e env f', out.1 = .suspend e env ∧ f' < f
      ∧ dispatch f' .plain e env out.2 = .ok (.val v, st1)

/-- A plain-mode run that finished with a value is matched, at every
sufficiently large fuel, by an optimized-mode run up to `OLink`. -/
def SimRun (f : Nat) (run : Nat → Mode → Except Err (Res × Store)) : Prop :=
  ∀ r st1, run f .plain = .ok (r, st1) →
    ∃ v, r = .val v ∧ ∃ out, OLink f v st1 out ∧ ∃ F, ∀ g, F ≤ g → run g .opt = .ok out

/-- A plain-mode run whose optimized-mode counterpart returns the identical
result at every sufficiently large fuel. -/
def SimExact {α : Type} (f : Nat) (run : Nat → Mode → Except Err α) : Prop :=
  ∀ p, run f .plain = .ok p → ∃ F, ∀ g, F ≤ g → run g .opt = .ok p

/-- The full simulation invariant at plain-mode fuel `f`, one field per
function of the evaluator family. -/
structure SimAll (f : Nat) : Prop where
  seval_false : ∀ e env st, SimExact f (fun n m => seval n m false e env st)
  seval_true : ∀ e env st, SimRun f (fun n m => seval n m true e env st)
  disp : ∀ e env st, SimRun f (fun n m => dispatch n m e env st)
  tram : ∀ e env st v st1, dispatch f .plain e env st = .ok (.val v, st1) →
    ∃ F, ∀ g, F ≤ g → tramp g (.suspend e env) st = .ok (.val v, st1)
  form : ∀ name rest env st, SimRun f (fun n m => doForm n m name rest env st)
  defineF : ∀ exprs env st, SimExact f (fun n m => doDefine n m exprs env st)
  beginF : ∀ exprs env st, SimRun f (fun n m => doBegin n m exprs env st)
  evalAllF : ∀ exprs env st, SimRun f (fun n m => evalAll n m exprs env st)
  evalSeqF : ∀ e rest env st, SimRun f (fun n m => evalSeq n m e rest env st)
  ifF : ∀ exprs env st, SimRun f (fun n m => doIf n m exprs env st)
  andF : ∀ exprs env st, SimRun f (fun n m => doAnd n m exprs env st)
  andLoopF : ∀ e rest env st, SimRun f (fun n m => andLoop n m e rest env st)
  orF : ∀ exprs env st, SimRun f (fun n m => doOr n m exprs env st)
  orLoopF : ∀ e rest env st, SimRun f (fun n m => orLoop n m e rest env st)
  condF : ∀ exprs env st, SimRun f (fun n m => doCond n m exprs env st)
  condLoopF : ∀ nc i exprs env st, SimRun f (fun n m => condLoop n m nc i exprs env st)
  letF : ∀ exprs env st, SimRun f (fun n m => doLet n m exprs env st)
  letFrameF : ∀ bindings env st, SimExact f (fun n m => makeLetFrame n m bindings env st)
  letLoopF : ∀ bindings formals vals env st,
    SimExact f (fun n m => letLoop n m bindings formals vals env st)
  callF : ∀ proc argExprs env st, SimRun f (fun n m => evalCall n m proc argExprs env st)
  argsF : ∀ exprs env st, SimExact f (fun n m => evalArgs n m exprs env st)
  applyF : ∀ proc args env st, SimRun f (fun n m => applyProc n m proc args env st)

end Scheme

namespace Scheme

/-! Supporting lemmas about the list predicates and the store. -/

theorem slen_of_isListV {v : SVal} (h : isListV v = true) : ∃ k, slen v = some k := by
  induction v with
  | nil => exact ⟨0, rfl⟩
  | pair a d iha ihd =>
    simp only [isListV] at h
    obtain ⟨k, hk⟩ := ihd h
    exact ⟨k + 1, by simp [slen, hk]⟩
  | _ => simp [isListV] at h

theorem isListV_of_slen {v : SVal} {k : Nat} (h : slen v = some k) : isListV v = true := by
  induction v generalizing k with
  | nil => rfl
  | pair a d iha ihd =>
    simp only [slen, Option.map_eq_some'] at h
    obtain ⟨m, hm, _⟩ := h
    simpa [isListV] using ihd hm
  | _ => simp [slen] at h

theorem slen_eq_scount {v : SVal} (h : isListV v = true) : slen v = some (scount v) := by
  induction v with
  | nil => rfl
  | pair a d iha ihd =>
    simp only [isListV] at h
    simp [slen, scount, ihd h]
  | _ => simp [isListV] at h

theorem isListV_sappend {a b : SVal} (ha : isListV a = true) (hb : isListV b = true) :
    isListV (sappend a b) = true := by
  induction a with
  | nil => simpa [sappend]
  | pair x xs ihx ihxs =>
    simp only [isListV] at ha
    simp [sappend, isListV, ihxs ha]
  | _ => simp [isListV] at ha

theorem scount_sappend {a : SVal} (b : SVal) (ha : isListV a = true) :
    scount (sappend a b) = scount a + scount b := by
  induction a with
  | nil => simp [sappend, scount]
  | pair x xs ihx ihxs =>
    simp only [isListV] at ha
    simp [sappend, scount, ihxs ha]; omega
  | _ => simp [isListV] at ha

theorem slen_listToS (l : List SVal) : slen (listToS l) = some l.length := by
  induction l with
  | nil => rfl
  | cons x xs ih => simp [listToS, slen, ih]

theorem assocFind_append (xs ys : List (String × SVal)) (k : String) :
    assocFind (xs ++ ys) k =
      (match assocFind xs k with
       | some v => some v
       | none => assocFind ys k) := by
  induction xs with
  | nil => simp [assocFind]
  | cons p rest ih =>
    by_cases h : p.1 = k
    · simp [assocFind, h]
    · simp [assocFind, h, ih]

theorem assocFind_eq_none {xs : List (String × SVal)} {k : String}
    (h : ∀ p ∈ xs, p.1 ≠ k) : assocFind xs k = none := by
  induction xs with
  | nil => rfl
  | cons p rest ih =>
    have hp := h p (by simp)
    simp only [assocFind, hp, if_false]
    exact ih (fun q hq => h q (by simp [hq]))

theorem getElem?_concat (st : Store) (f : Frame) : (st ++ [f])[st.length]? = some f := by
  simp

/-- `tramp` never returns a suspension: the `while` loop of
`scheme_optimized_eval` only exits when a plain value is produced. -/
theorem tramp_no_suspend :
    ∀ (f : Nat) (r : Res) (st : Store) (out : Res × Store),
      tramp f r st = .ok out → ∃ v, out.1 = .val v := by
  intro f
  induction f with
  | zero => intro r st out h; simp [tramp] at h
  | succ n ih =>
    intro r st out h
    match r with
    | .val v =>
      simp only [tramp, Except.ok.injEq] at h
      exact ⟨v, by rw [← h]⟩
    | .suspend e env =>
      simp only [tramp, bind, Except.bind] at h
      cases hd : dispatch n .opt e env st with
      | error err => rw [hd] at h; exact absurd h (by simp)
      | ok p => rw [hd] at h; exact ih p.1 p.2 out h

end Scheme

namespace Scheme

@[simp] theorem exceptBind_ok {e a b : Type} (x : a) (f : a → Except e b) :
    (Except.ok x : Except e a) >>= f = f x := rfl

@[simp] theorem exceptBind_error {e a b : Type} (err : e) (f : a → Except e b) :
    (Except.error err : Except e a) >>= f = .error err := rfl

@[simp] theorem exceptMap_ok {e a b : Type} (x : a) (f : a → b) :
    Except.map f (Except.ok x : Except e a) = .ok (f x) := rfl

@[simp] theorem exceptMap_error {e a b : Type} (err : e) (f : a → b) :
    Except.map f (Except.error err : Except e a) = .error err := rfl

/-- Unpack a successful `make_child_frame`: the new frame sits at the end of
the store, its parent is the requested one, and unbound names delegate to
the parent chain. -/
theorem makeChildFrame_ok {st : Store} {parent : Nat} {formals vals : SVal}
    {fid : Nat} {st' : Store}
    (h : makeChildFrame st parent formals vals = .ok (fid, st')) :
    ∃ bs, fid = st.length ∧ st' = st ++ [⟨bs, some parent⟩]
      ∧ st'[fid]? = some ⟨bs, some parent⟩
      ∧ ∀ s, assocFind bs s = none →
          lookup st' fid s = lookupAux fid st' parent s := by
  unfold makeChildFrame at h
  split at h
  case h_2 => exact absurd h (by simp)
  case h_1 lf lv hf hv =>
    split at h
    case isFalse => exact absurd h (by simp)
    case isTrue he =>
      cases hb : bindPairs formals vals [] with
      | error e => rw [hb] at h; simp [Except.map] at h
      | ok bs =>
        rw [hb] at h
        simp only [Except.map, Except.ok.injEq, Prod.mk.injEq] at h
        obtain ⟨hfid, hst⟩ := h
        have hget : st'[fid]? = some ⟨bs, some parent⟩ := by
          rw [← hst, ← hfid]; exact getElem?_concat st _
        exact ⟨bs, hfid.symm, hst.symm, hget,
          fun s hs => by simp [lookup, lookupAux, hget, hs]⟩

/-- C1: in `scheme_optimized_eval`, a call with `tail=True` on an expression
that is neither a symbol nor self-evaluating (a combination) returns the
`Evaluate` suspension pairing the unevaluated expression with its frame,
without dispatching; and a symbol or self-evaluating expression never
yields a suspension, whatever the tail flag (and leaves the store
untouched). -/
theorem c1_tail_suspension (expr : SVal) (env : Nat) (st : Store) :
    (isSymbolV expr = false → selfEvaluating expr = false →
      ∀ fuel, seval (fuel + 1) .opt true expr env st = .ok (.suspend expr env, st))
    ∧ (isSymbolV expr = true ∨ selfEvaluating expr = true →
      ∀ fuel tail r st', seval fuel .opt tail expr env st = .ok (r, st') →
        ∃ v, r = .val v ∧ st' = st) := by
  constructor
  · intro h1 h2 fuel
    simp [seval, h1, h2]
  · intro h fuel tail r st' hev
    match fuel with
    | 0 => simp [seval] at hev
    | n + 1 =>
      by_cases hsym : isSymbolV expr = true
      · simp only [seval, hsym, if_true] at hev
        cases hl : lookup st env (symName expr) with
        | error e => rw [hl] at hev; simp [Except.map] at hev
        | ok v =>
          rw [hl] at hev
          simp [Except.map] at hev
          exact ⟨v, hev.1.symm, hev.2.symm⟩
      · rcases h with h | h
        · exact absurd h hsym
        · simp only [seval, hsym, if_false, Bool.not_eq_true, h, if_true] at hev
          simp at hev
          exact ⟨expr, hev.1.symm, hev.2.symm⟩

/-- C1 witness: a one-element combination suspends under `tail=True`; a
number never does. -/
theorem c1_tail_suspension_witness :
    seval 1 .opt true (.pair (.sym "f") .nil) 0 [] = .ok (.suspend (.pair (.sym "f") .nil) 0, [])
    ∧ ∃ v, Res.val (SVal.num 3) = Res.val v ∧ ([] : Store) = [] := by
  constructor
  · exact (c1_tail_suspension (.pair (.sym "f") .nil) 0 []).1 rfl rfl 0
  · exact (c1_tail_suspension (SVal.num 3) 0 []).2 (Or.inr rfl) 1 true
      (Res.val (SVal.num 3)) [] (by decide)

/-- C2: `LambdaProcedure.make_call_frame` builds the call frame as a child
of the captured defining frame: the calling frame argument plays no role in
the result, and on success the new frame's parent is the captured frame id,
so a name missing from the new frame's own bindings is looked up through
the defining frame's ancestor chain. -/
theorem c2_lambda_lexical_scope :
    (∀ lamFormals lamEnv args envB envB' st,
       lambdaMakeCallFrame lamFormals lamEnv args envB st
         = lambdaMakeCallFrame lamFormals lamEnv args envB' st)
    ∧ (∀ lamFormals lamEnv args envB st fid st',
       lambdaMakeCallFrame lamFormals lamEnv args envB st = .ok (fid, st') →
       ∃ bs, st'[fid]? = some ⟨bs, some lamEnv⟩
         ∧ ∀ s, assocFind bs s = none →
             lookup st' fid s = lookupAux fid st' lamEnv s) := by
  constructor
  · intro lamFormals lamEnv args envB envB' st
    rfl
  · intro lamFormals lamEnv args envB st fid st' h
    obtain ⟨bs, _, _, hget, hdel⟩ := makeChildFrame_ok h
    exact ⟨bs, hget, hdel⟩

/-- C2 witness: a lambda captured in frame 0, called from frame 1, builds
its frame as a child of frame 0. -/
theorem c2_lambda_lexical_scope_witness :
    ∃ bs, ([⟨[], none⟩, ⟨[], some 0⟩, ⟨[("a", SVal.num 1)], some 0⟩] : Store)[2]?
            = some ⟨bs, some 0⟩
      ∧ ∀ s, assocFind bs s = none →
          lookup [⟨[], none⟩, ⟨[], some 0⟩, ⟨[("a", SVal.num 1)], some 0⟩] 2 s
            = lookupAux 2 [⟨[], none⟩, ⟨[], some 0⟩, ⟨[("a", SVal.num 1)], some 0⟩] 0 s :=
  c2_lambda_lexical_scope.2 (.pair (.sym "a") .nil) 0 (.pair (.num 1) .nil) 1
    [⟨[], none⟩, ⟨[], some 0⟩] 2 _ rfl

/-- C3: `MuProcedure.make_call_frame` builds the call frame as a child of
the calling frame passed at call time, so free variables of the body
resolve through the caller's chain; concretely, applying the single value
`(mu () (x))` from two frames that bind `x` to `1` and to `2` yields `1`
and `2` respectively — two different results for the identical Mu value. -/
theorem c3_mu_dynamic_scope :
    (∀ muFormals args envC st fid st',
       muMakeCallFrame muFormals args envC st = .ok (fid, st') →
       ∃ bs, st'[fid]? = some ⟨bs, some envC⟩
         ∧ ∀ s, assocFind bs s = none →
             lookup st' fid s = lookupAux fid st' envC s)
    ∧ applyProc 9 .opt (.muP .nil (.pair (.sym "x") .nil)) .nil 0 [⟨[("x", .num 1)], none⟩]
        = .ok (.val (.num 1), [⟨[("x", .num 1)], none⟩, ⟨[], some 0⟩])
    ∧ applyProc 9 .opt (.muP .nil (.pair (.sym "x") .nil)) .nil 0 [⟨[("x", .num 2)], none⟩]
        = .ok (.val (.num 2), [⟨[("x", .num 2)], none⟩, ⟨[], some 0⟩])
    ∧ Res.val (SVal.num 1) ≠ Res.val (SVal.num 2) := by
  refine ⟨?_, by decide, by decide, by simp⟩
  intro muFormals args envC st fid st' h
  obtain ⟨bs, _, _, hget, hdel⟩ := makeChildFrame_ok h
  exact ⟨bs, hget, hdel⟩

/-- C3 witness: a Mu with no formals called from frame 0 gets a frame whose
parent is frame 0, delegating unbound names there. -/
theorem c3_mu_dynamic_scope_witness :
    ∃ bs, ([⟨[("x", SVal.num 1)], none⟩, ⟨[], some 0⟩] : Store)[1]? = some ⟨bs, some 0⟩
      ∧ ∀ s, assocFind bs s = none →
          lookup [⟨[("x", SVal.num 1)], none⟩, ⟨[], some 0⟩] 1 s
            = lookupAux 1 [⟨[("x", SVal.num 1)], none⟩, ⟨[], some 0⟩] 0 s :=
  c3_mu_dynamic_scope.1 .nil .nil 0 [⟨[("x", SVal.num 1)], none⟩] 1 _ rfl

end Scheme

namespace Scheme

/-- C4: in `make_let_frame`, every binding expression is evaluated by
`scheme_eval(start.second.first, env)` against the outer (pre-`let`) frame
`env`, with the accumulated formals and values playing no part; hence
`(let ((x 5) (y x)) y)` in any frame where `x` is unbound fails with the
"unknown identifier" error raised while evaluating the binding list. -/
theorem c4_let_simultaneous_binding :
    (∀ n mode s e rest formals vals env st r st1 v,
       seval n mode false e env st = .ok (r, st1) →
       asValue r = .ok v →
       letLoop (n + 1) mode (.pair (.pair s (.pair e .nil)) rest) formals vals env st
         = letLoop n mode rest (.pair s formals) (.pair v vals) env st1)
    ∧ (∀ n mode env st,
       lookup st env "x" = .error (.unboundIdentifier "x") →
       doLet (n + 5) mode letXYArgs env st = .error (.unboundIdentifier "x")) := by
  constructor
  · intro n mode s e rest formals vals env st r st1 v hev hval
    simp [letLoop, checkForm, isListV, slen, hev, hval]
  · intro n mode env st h
    simp [doLet, letXYArgs, makeLetFrame, letLoop, seval, checkForm, isListV, slen,
      selfEvaluating, isSymbolV, symName, asValue, h, Except.map]

/-- C4 witness: with an empty global frame, the two-binding `let` fails
unbound on `x`, and a single-binding step is the evaluation of its
expression in the outer frame. -/
theorem c4_let_simultaneous_binding_witness :
    doLet 5 .opt letXYArgs 0 [⟨[], none⟩] = .error (.unboundIdentifier "x")
    ∧ letLoop 2 .opt (.pair (.pair (.sym "x") (.pair (.num 5) .nil)) .nil) .nil .nil 0 [⟨[], none⟩]
        = letLoop 1 .opt .nil (.pair (.sym "x") .nil) (.pair (.num 5) .nil) 0 [⟨[], none⟩] := by
  constructor
  · exact c4_let_simultaneous_binding.2 0 .opt 0 [⟨[], none⟩] (by decide)
  · exact c4_let_simultaneous_binding.1 1 .opt (.sym "x") (.num 5) .nil .nil .nil 0 [⟨[], none⟩]
      (.val (.num 5)) [⟨[], none⟩] (.num 5) (by decide) rfl

/-- C6: evaluating `check_formals` at the failing input — the parameter
list `((a b c))`, whose single element is a `Pair`, not a symbol — returns
successfully instead of raising the MalformedParameterList error its
docstring and the claim require: the nested-`Pair` branch redirects the
scan into the inner list `(a b c)` (whose length is at least 3) and checks
its elements instead.  The two inputs the claim names are rejected as
required. -/
theorem c6_check_formals_failing_input :
    check_formals (.pair (.pair (.sym "a") (.pair (.sym "b") (.pair (.sym "c") .nil))) .nil)
      = .ok ()
    ∧ check_formals (.pair (.sym "a") (.pair (.sym "a") .nil)) = .error .malformedParams
    ∧ check_formals (.pair (.sym "a") (.pair (.num 3) .nil)) = .error .malformedParams := by
  exact ⟨rfl, rfl, rfl⟩

/-- C9: a `let` binding entry that is a proper list of length at most 1 —
`()` or `(x)` — passes `make_let_frame`'s per-entry check
`check_form(entry, 0, 2)`; the failure appears only afterwards, when the
missing symbol or expression slot is accessed (`start.first` on `nil`, or
`start.second.first` on `nil`), and it is an uncaught host `AttributeError`
(`pyError`), not a Scheme-level error. -/
theorem c9_short_let_entry (entry : SVal) (k : Nat) :
    (isListV entry = true → slen entry = some k → k ≤ 1 →
       checkForm entry 0 (some 2) = .ok ())
    ∧ (∀ n mode env st,
       makeLetFrame (n + 2) mode (.pair (.pair (.sym "x") .nil) .nil) env st
         = .error .pyError)
    ∧ (∀ n mode env st,
       makeLetFrame (n + 2) mode (.pair .nil .nil) env st = .error .pyError)
    ∧ Err.pyError.isSchemeError = false := by
  refine ⟨?_, ?_, ?_, rfl⟩
  · intro hl hk hle
    simp only [checkForm, hl, Bool.not_true, Bool.false_eq_true, if_false, hk]
    rw [if_neg (by omega), if_neg (by omega)]
  · intro n mode env st
    simp [makeLetFrame, letLoop, checkForm, isListV, slen]
  · intro n mode env st
    simp [makeLetFrame, letLoop, checkForm, isListV, slen]

/-- C9 witness: the entry `(x)` (length 1) passes the check, and the
two-frame run on `((x))` crashes with the host error. -/
theorem c9_short_let_entry_witness :
    checkForm (.pair (.sym "x") .nil) 0 (some 2) = .ok ()
    ∧ makeLetFrame 2 .opt (.pair (.pair (.sym "x") .nil) .nil) 0 [⟨[], none⟩]
        = .error .pyError := by
  constructor
  · exact (c9_short_let_entry (.pair (.sym "x") .nil) 1).1 rfl rfl (by omega)
  · exact (c9_short_let_entry (.pair (.sym "x") .nil) 1).2.1 0 .opt 0 [⟨[], none⟩]

end Scheme

namespace Scheme

/-- C5 counterexample: `(cond (else))` — a final `else` clause with no
body.  The claim says the clause's "true value" is returned; the code
instead hands the empty body to `do_begin_form`, whose
`check_form(expressions, 1)` raises "too few operands in form". -/
theorem c5_else_no_body_counterexample :
    doCond 9 .opt (.pair (.pair (.sym "else") .nil) .nil) 0 [⟨[], none⟩]
      = .error .tooFewOperands
    ∧ doCond 9 .opt (.pair (.pair (.sym "else") .nil) .nil) 0 [⟨[], none⟩]
      ≠ .ok (.val (.boolean true), [⟨[], none⟩]) := by
  exact ⟨rfl, by decide⟩

/-- C5 (amended): the clause scan of `do_cond_form`, one step at a time.
A winning non-`else` clause with no body returns its test value; a winning
clause with a body — and a final `else` clause always, even when its body
is empty — has its body evaluated via `do_begin_form` (so a final `else`
with an empty body fails the at-least-one-operand check instead of
returning the true value); a falsy test moves on to the next clause; and
the last expression of a body sequence is evaluated in tail position. -/
theorem c5_cond_first_truthy_wins :
    (∀ n mode nc i chead rest env st tres st1,
       chead ≠ .sym "else" →
       seval n mode false chead env st = .ok (tres, st1) →
       truthyRes tres = true →
       condLoop (n + 1) mode nc i (.pair (.pair chead .nil) rest) env st = .ok (tres, st1))
    ∧ (∀ n mode nc i chead cbody rest env st tres st1,
       chead ≠ .sym "else" →
       isListV cbody = true → cbody ≠ .nil →
       seval n mode false chead env st = .ok (tres, st1) →
       truthyRes tres = true →
       condLoop (n + 1) mode nc i (.pair (.pair chead cbody) rest) env st
         = doBegin n mode cbody env st1)
    ∧ (∀ n mode nc i chead cbody rest env st tres st1,
       chead ≠ .sym "else" →
       isListV cbody = true →
       seval n mode false chead env st = .ok (tres, st1) →
       truthyRes tres = false →
       condLoop (n + 1) mode nc i (.pair (.pair chead cbody) rest) env st
         = condLoop n mode nc (i + 1) rest env st1)
    ∧ (∀ n mode nc i cbody rest env st,
       isListV cbody = true → ¬(i < nc - 1) →
       condLoop (n + 1) mode nc i (.pair (.pair (.sym "else") cbody) rest) env st
         = doBegin n mode cbody env st)
    ∧ (∀ n mode last env st,
       evalSeq (n + 1) mode last .nil env st = seval n mode true last env st) := by
  refine ⟨?_, ?_, ?_, ?_, fun n mode last env st => rfl⟩
  · intro n mode nc i chead rest env st tres st1 hne hev htr
    simp [condLoop, checkForm, isListV, slen, hne, hev, htr]
  · intro n mode nc i chead cbody rest env st tres st1 hne hl hnil hev htr
    obtain ⟨k, hk⟩ := slen_of_isListV hl
    simp [condLoop, checkForm, isListV, slen, hne, hev, htr, hl, hk, hnil]
  · intro n mode nc i chead cbody rest env st tres st1 hne hl hev htr
    obtain ⟨k, hk⟩ := slen_of_isListV hl
    simp [condLoop, checkForm, isListV, slen, hne, hev, hl, hk, htr, falsyRes]
  · intro n mode nc i cbody rest env st hl hi
    obtain ⟨k, hk⟩ := slen_of_isListV hl
    simp [condLoop, checkForm, isListV, slen, hl, hk, hi]

/-- C5 witness: `(cond (7))` returns `7`, the truthy test value of a
body-less non-`else` clause. -/
theorem c5_cond_first_truthy_wins_witness :
    condLoop 2 .opt 1 0 (.pair (.pair (.num 7) .nil) .nil) 0 [⟨[], none⟩]
      = .ok (.val (.num 7), [⟨[], none⟩]) :=
  c5_cond_first_truthy_wins.1 1 .opt 1 0 (.num 7) .nil 0 [⟨[], none⟩]
    (.val (.num 7)) [⟨[], none⟩] (by decide) (by decide) rfl

end Scheme

namespace Scheme

/-- The binding loop on a list of distinct formals produces the reversed
zip (each `define` prepends). -/
theorem bindPairs_listToS (syms : List String) (vs : List SVal)
    (acc : List (String × SVal)) :
    bindPairs (listToS (syms.map .sym)) (listToS vs) acc
      = .ok ((syms.zip vs).reverse ++ acc) := by
  induction syms generalizing vs acc with
  | nil => cases vs <;> simp [listToS, bindPairs]
  | cons s ss ih =>
    cases vs with
    | nil => simp [listToS, bindPairs]
    | cons v vv => simp [listToS, bindPairs, ih]

/-- In the reversed zip of distinct keys, first-match lookup recovers the
positional binding. -/
theorem assocFind_reverse_zip {syms : List String} {vs : List SVal}
    (hnd : syms.Nodup) :
    ∀ i (hi : i < syms.length) (hiv : i < vs.length),
      assocFind ((syms.zip vs).reverse) syms[i] = some vs[i] := by
  induction syms generalizing vs with
  | nil => intro i hi hiv; exact absurd hi (by simp)
  | cons s ss ih =>
    intro i hi hiv
    cases vs with
    | nil => exact absurd hiv (by simp)
    | cons v vv =>
      have hnotmem : s ∉ ss := (List.nodup_cons.mp hnd).1
      have hnds : ss.Nodup := (List.nodup_cons.mp hnd).2
      match i with
      | 0 =>
        have hnone : assocFind ((ss.zip vv).reverse) s = none := by
          refine assocFind_eq_none ?_
          intro p hp
          have hz : p ∈ ss.zip vv := List.mem_reverse.mp hp
          have := (List.of_mem_zip hz).1
          intro hcontra
          exact hnotmem (hcontra ▸ this)
        simp only [List.zip_cons_cons, List.reverse_cons]
        rw [assocFind_append]
        simp [hnone, assocFind]
      | i + 1 =>
        have hi' : i < ss.length := by simp at hi; omega
        have hiv' : i < vv.length := by simp at hiv; omega
        have hrec := ih hnds i hi' hiv'
        simp only [List.zip_cons_cons, List.reverse_cons]
        rw [assocFind_append]
        simp [hrec]

/-- C8: `Frame.make_child_frame` on two proper lists raises the
ArityMismatch `SchemeError` — returning no frame — exactly when the lengths
differ; with equal lengths (and the formals already validated as distinct
symbols) it returns a new frame whose parent is the receiver, binding the
i-th formal to the i-th value. -/
theorem c8_make_child_frame :
    (∀ (st : Store) (F : Nat) (formals vals : SVal) (lf lv : Nat),
       slen formals = some lf → slen vals = some lv → lf ≠ lv →
       makeChildFrame st F formals vals = .error .arityMismatch)
    ∧ (∀ (st : Store) (F : Nat) (syms : List String) (vs : List SVal),
       syms.Nodup → syms.length = vs.length →
       makeChildFrame st F (listToS (syms.map .sym)) (listToS vs)
         = .ok (st.length, st ++ [⟨(syms.zip vs).reverse, some F⟩])
       ∧ ∀ i (hi : i < syms.length) (hiv : i < vs.length),
           assocFind ((syms.zip vs).reverse) syms[i] = some vs[i]) := by
  constructor
  · intro st F formals vals lf lv hf hv hne
    simp [makeChildFrame, hf, hv, hne]
  · intro st F syms vs hnd hlen
    constructor
    · simp [makeChildFrame, slen_listToS, hlen, bindPairs_listToS]
    · exact assocFind_reverse_zip hnd

/-- C8 witness: `(a b)` against `(1 2)` binds positionally under the given
parent; `(a)` against `(1 2)` is an arity error. -/
theorem c8_make_child_frame_witness :
    makeChildFrame [⟨[], none⟩] 0
        (listToS (["a", "b"].map .sym)) (listToS [SVal.num 1, SVal.num 2])
      = .ok (1, [⟨[], none⟩, ⟨((["a", "b"].zip [SVal.num 1, SVal.num 2]).reverse), some 0⟩])
    ∧ makeChildFrame [⟨[], none⟩] 0 (.pair (.sym "a") .nil)
        (.pair (.num 1) (.pair (.num 2) .nil)) = .error .arityMismatch := by
  constructor
  · exact (c8_make_child_frame.2 [⟨[], none⟩] 0 ["a", "b"] [SVal.num 1, SVal.num 2]
      (by decide) rfl).1
  · exact c8_make_child_frame.1 [⟨[], none⟩] 0 (.pair (.sym "a") .nil)
      (.pair (.num 1) (.pair (.num 2) .nil)) 1 2 rfl rfl (by omega)

end Scheme

namespace Scheme

theorem Falls_isListV {mode env k pre st st2} (h : Falls mode env k pre st st2) :
    isListV pre = true := by
  induction h with
  | done => rfl
  | step _ _ _ _ _ _ _ _ _ _ _ _ _ ih => simpa [isListV] using ih

/-- `condLoop` consumes a falling-through prefix, advancing the index by
the number of clauses scanned and losing one unit of fuel per clause. -/
theorem condLoop_falls {mode : Mode} {env k : Nat} {pre : SVal} {st st2 : Store}
    (h : Falls mode env k pre st st2) :
    ∀ nc i tail, condLoop k mode nc i (sappend pre tail) env st
      = condLoop (k - scount pre) mode nc (i + scount pre) tail env st2 := by
  induction h with
  | done k st => intro nc i tail; simp [sappend, scount]
  | step k chead cbody rest st st1 st2 tres hl hne hev htr hfalls ih =>
    intro nc i tail
    obtain ⟨m, hm⟩ := slen_of_isListV hl
    have hstep : condLoop (k + 1) mode nc i
          (sappend (.pair (.pair chead cbody) rest) tail) env st
        = condLoop k mode nc (i + 1) (sappend rest tail) env st1 := by
      simp [sappend, condLoop, checkForm, isListV, slen, hl, hm, hne, hev, htr, falsyRes]
    have h1 : (k + 1) - scount (SVal.pair (.pair chead cbody) rest) = k - scount rest := by
      simp [scount]
    have h2 : i + scount (SVal.pair (.pair chead cbody) rest) = (i + 1) + scount rest := by
      simp [scount]; omega
    rw [hstep, ih nc (i + 1) tail, h1, h2]

theorem scount_pos_of_ne_nil {v : SVal} (hl : isListV v = true) (hne : v ≠ .nil) :
    1 ≤ scount v := by
  cases v with
  | nil => exact absurd rfl hne
  | pair a d => simp [scount]
  | _ => simp [isListV] at hl

/-- C7: when the clauses before an `else` clause all fall through (proper
clauses, non-`else` heads, falsy tests), an `else` clause followed by at
least one more clause raises the "else must be last" error at the moment it
is reached; positioned last, it wins unconditionally — the `cond` reduces
to `do_begin_form` on the clause's body. -/
theorem c7_else_only_last :
    (∀ mode env k pre ebody post st st2,
       Falls mode env k pre st st2 →
       isListV ebody = true → isListV post = true → post ≠ .nil →
       scount pre < k →
       doCond (k + 1) mode (sappend pre (.pair (.pair (.sym "else") ebody) post)) env st
         = .error .misplacedElse)
    ∧ (∀ mode env k pre ebody st st2,
       Falls mode env k pre st st2 →
       isListV ebody = true →
       scount pre < k →
       doCond (k + 1) mode (sappend pre (.pair (.pair (.sym "else") ebody) .nil)) env st
         = doBegin (k - scount pre - 1) mode ebody env st2) := by
  constructor
  · intro mode env k pre ebody post st st2 hfalls hleb hlpost hpostne hk
    have hlpre := Falls_isListV hfalls
    have hltail : isListV (SVal.pair (.pair (.sym "else") ebody) post) = true := by
      simp [isListV, hlpost]
    have hlex := isListV_sappend hlpre hltail
    have hsc : scount (sappend pre (.pair (.pair (.sym "else") ebody) post))
        = scount pre + (scount post + 1) := by
      rw [scount_sappend _ hlpre]; simp [scount]
    have hslen := slen_eq_scount hlex
    rw [hsc] at hslen
    obtain ⟨kb, hkb⟩ := slen_of_isListV hleb
    have hpost1 := scount_pos_of_ne_nil hlpost hpostne
    obtain ⟨m, hm⟩ : ∃ m, k - scount pre = m + 1 := ⟨k - scount pre - 1, by omega⟩
    simp only [doCond, hslen]
    rw [condLoop_falls hfalls, hm]
    simp [condLoop, checkForm, isListV, slen, hleb, hkb]
    omega
  · intro mode env k pre ebody st st2 hfalls hleb hk
    have hlpre := Falls_isListV hfalls
    have hltail : isListV (SVal.pair (.pair (.sym "else") ebody) .nil) = true := by
      simp [isListV]
    have hlex := isListV_sappend hlpre hltail
    have hsc : scount (sappend pre (.pair (.pair (.sym "else") ebody) .nil))
        = scount pre + 1 := by
      rw [scount_sappend _ hlpre]; simp [scount]
    have hslen := slen_eq_scount hlex
    rw [hsc] at hslen
    obtain ⟨kb, hkb⟩ := slen_of_isListV hleb
    obtain ⟨m, hm⟩ : ∃ m, k - scount pre = m + 1 := ⟨k - scount pre - 1, by omega⟩
    simp only [doCond, hslen]
    rw [condLoop_falls hfalls, hm]
    have hmm : m = k - scount pre - 1 := by omega
    simp [condLoop, checkForm, isListV, slen, hleb, hkb, hmm]

/-- C7 witness: after the falsy clause `(#f)`, a non-final `(else 1)`
raises MisplacedElse, and a final `(else 1)` reduces to its body. -/
theorem c7_else_only_last_witness :
    doCond 3 .opt
        (sappend (.pair (.pair (.boolean false) .nil) .nil)
          (.pair (.pair (.sym "else") (.pair (.num 1) .nil))
            (.pair (.pair (.num 2) .nil) .nil))) 0 [⟨[], none⟩]
      = .error .misplacedElse
    ∧ doCond 3 .opt
        (sappend (.pair (.pair (.boolean false) .nil) .nil)
          (.pair (.pair (.sym "else") (.pair (.num 1) .nil)) .nil)) 0 [⟨[], none⟩]
      = doBegin 0 .opt (.pair (.num 1) .nil) 0 [⟨[], none⟩] := by
  have hfalls : Falls .opt 0 2 (.pair (.pair (.boolean false) .nil) .nil)
      [⟨[], none⟩] [⟨[], none⟩] :=
    .step 1 (.boolean false) .nil .nil [⟨[], none⟩] [⟨[], none⟩] [⟨[], none⟩]
      (.val (.boolean false)) rfl (by decide) (by decide) rfl (.done 1 [⟨[], none⟩])
  constructor
  · exact c7_else_only_last.1 .opt 0 2 (.pair (.pair (.boolean false) .nil) .nil)
      (.pair (.num 1) .nil) (.pair (.pair (.num 2) .nil) .nil) [⟨[], none⟩] [⟨[], none⟩]
      hfalls rfl rfl (by decide) (by decide)
  · exact c7_else_only_last.2 .opt 0 2 (.pair (.pair (.boolean false) .nil) .nil)
      (.pair (.num 1) .nil) [⟨[], none⟩] [⟨[], none⟩] hfalls rfl (by decide)

end Scheme

namespace Scheme

/-- `seval` in `.opt` mode with `tail=False` never returns a suspension:
its value comes out of the trampoline loop (or an atom). -/
theorem seval_opt_false_no_suspend {g : Nat} {e : SVal} {env : Nat} {st : Store}
    {r : Res} {st1 : Store} (h : seval g .opt false e env st = .ok (r, st1)) :
    ∃ v, r = .val v := by
  match g with
  | 0 => simp [seval] at h
  | n + 1 =>
    by_cases hsym : isSymbolV e = true
    · simp only [seval, hsym, if_true] at h
      cases hl : lookup st env (symName e) with
      | error err => rw [hl] at h; simp at h
      | ok v => rw [hl] at h; simp at h; exact ⟨v, h.1.symm⟩
    · by_cases hse : selfEvaluating e = true
      · simp only [seval, hsym, if_false, hse, if_true, Bool.not_eq_true] at h
        simp at h
        exact ⟨e, h.1.symm⟩
      · simp only [seval, hsym, hse, Bool.not_eq_true, if_false] at h
        exact tramp_no_suspend n (.suspend e env) st (r, st1) h

theorem OLink_mono {f f' : Nat} {v : SVal} {st1 : Store} {out : Res × Store}
    (hle : f ≤ f') (h : OLink f v st1 out) : OLink f' v st1 out := by
  rcases h with h | ⟨e, env, k, h1, h2, h3⟩
  · exact Or.inl h
  · exact Or.inr ⟨e, env, k, h1, by omega, h3⟩

end Scheme

namespace Scheme

theorem exceptBind_eq_ok {e a b : Type} {x : Except e a} {f : a → Except e b} {y : b}
    (h : (x >>= f) = .ok y) : ∃ u, x = .ok u ∧ f u = .ok y := by
  cases x with
  | ok u => exact ⟨u, rfl, by simpa using h⟩
  | error err => simp at h

theorem bind_no_ok {e a b : Type} {x : Except e a} {k : a → Except e b} {y : b}
    (h : (x >>= k) = .ok y) (hk : ∀ u, k u = .ok y → False) : False := by
  obtain ⟨u, _, h2⟩ := exceptBind_eq_ok h
  exact hk u h2

theorem checkForm_ok_isList {e : SVal} {mn : Nat} {mx : Option Nat} {u : Unit}
    (h : checkForm e mn mx = .ok u) :
    ∃ L, slen e = some L ∧ mn ≤ L ∧ ∀ m, mx = some m → L ≤ m := by
  unfold checkForm at h
  split at h
  · simp at h
  · cases hsl : slen e with
    | none => rw [hsl] at h; simp at h
    | some L =>
      simp only [hsl] at h
      refine ⟨L, rfl, ?_, ?_⟩
      · by_cases hlt : L < mn
        · rw [if_pos hlt] at h; simp at h
        · omega
      · intro m hm
        subst hm
        by_cases hlt : L < mn
        · rw [if_pos hlt] at h; simp at h
        · rw [if_neg hlt] at h
          dsimp only at h
          by_cases hgt : L > m
          · rw [if_pos hgt] at h; simp at h
          · omega

theorem doDefine_val {n : Nat} {mode : Mode} {exprs : SVal} {env : Nat} {st : Store}
    {r : Res} {st1 : Store} (h : doDefine n mode exprs env st = .ok (r, st1)) :
    ∃ v, r = .val v := by
  match n with
  | 0 => simp [doDefine] at h
  | n + 1 =>
    cases exprs
    case pair target drest =>
      cases target
      case sym s =>
        cases drest
        case pair vexpr vrest =>
          simp only [doDefine] at h
          cases hcf : checkForm (SVal.pair (.sym s) (.pair vexpr vrest)) 2 none with
          | error err => rw [hcf] at h; simp at h
          | ok u =>
            rw [hcf] at h
            simp only [exceptBind_ok] at h
            cases hcf2 : checkForm (SVal.pair (.sym s) (.pair vexpr vrest)) 2 (some 2) with
            | error err => rw [hcf2] at h; simp at h
            | ok u2 =>
              rw [hcf2] at h
              simp only [exceptBind_ok] at h
              cases h1 : seval n mode false vexpr env st with
              | error err => rw [h1] at h; simp at h
              | ok q =>
                obtain ⟨q1, q2⟩ := q
                rw [h1] at h
                simp only [exceptBind_ok] at h
                cases h2 : asValue q1 with
                | error err => rw [h2] at h; simp at h
                | ok v =>
                  rw [h2] at h
                  simp only [exceptBind_ok, Except.ok.injEq, Prod.mk.injEq] at h
                  exact ⟨.sym s, h.1.symm⟩
        all_goals simp [doDefine, checkForm, isListV, slen] at h
      case pair thead trest =>
        cases thead
        case sym fname =>
          simp only [doDefine] at h
          cases hcf : checkForm (SVal.pair (.pair (.sym fname) trest) drest) 2 none with
          | error err => rw [hcf] at h; simp at h
          | ok u =>
            rw [hcf] at h
            simp only [exceptBind_ok] at h
            cases hlam : doLambdaForm (SVal.pair trest drest) env with
            | error err => rw [hlam] at h; simp at h
            | ok v =>
              rw [hlam] at h
              dsimp only at h
              simp only [Except.ok.injEq, Prod.mk.injEq] at h
              exact ⟨.sym fname, h.1.symm⟩
        all_goals
          simp only [doDefine] at h
          exact (bind_no_ok h (fun u hh => by simp at hh)).elim
      all_goals
        simp only [doDefine] at h
        exact (bind_no_ok h (fun u hh => by simp at hh)).elim
    all_goals simp [doDefine, checkForm, isListV, slen] at h

theorem simAll : ∀ f, SimAll f := by
  intro f
  induction f using Nat.strong_induction_on with
  | _ f ih =>
  have hargs : ∀ exprs env st, SimExact f (fun n m => evalArgs n m exprs env st) := by
    intro exprs env st p hp
    rcases Nat.eq_zero_or_pos f with hf0 | hfpos
    · subst hf0; simp [evalArgs] at hp
    · obtain ⟨n, rfl⟩ : ∃ n, f = n + 1 := ⟨f - 1, by omega⟩
      match exprs with
      | .nil =>
        simp only [evalArgs] at hp
        refine ⟨1, fun g hg => ?_⟩
        obtain ⟨h, rfl⟩ : ∃ h, g = h + 1 := ⟨g - 1, by omega⟩
        simpa [evalArgs] using hp
      | .pair a d =>
        simp only [evalArgs] at hp
        obtain ⟨q, h1, hp⟩ := exceptBind_eq_ok hp
        obtain ⟨q1, q2⟩ := q
        dsimp only at hp
        obtain ⟨v, h2, hp⟩ := exceptBind_eq_ok hp
        obtain ⟨w, h3, hp⟩ := exceptBind_eq_ok hp
        obtain ⟨w1, w2⟩ := w
        dsimp only at hp
        obtain ⟨F1, hF1⟩ := (ih n (by omega)).seval_false a env st (q1, q2) h1
        obtain ⟨F2, hF2⟩ := (ih n (by omega)).argsF d env q2 (w1, w2) h3
        refine ⟨max F1 F2 + 1, fun g hg => ?_⟩
        obtain ⟨h, rfl⟩ : ∃ h, g = h + 1 := ⟨g - 1, by omega⟩
        have e1 := hF1 h (by omega)
        have e2 := hF2 h (by omega)
        simp only [evalArgs, e1, exceptBind_ok, h2, e2]
        exact hp
      | .sym s => simp [evalArgs] at hp
      | .num i => simp [evalArgs] at hp
      | .str s => simp [evalArgs] at hp
      | .boolean b => simp [evalArgs] at hp
      | .primitive o nm => simp [evalArgs] at hp
      | .lambdaP a b c => simp [evalArgs] at hp
      | .muP a b => simp [evalArgs] at hp
      | .undef => simp [evalArgs] at hp
  have hletLoop : ∀ bindings formals vals env st,
      SimExact f (fun n m => letLoop n m bindings formals vals env st) := by
    intro bindings formals vals env st p hp
    rcases Nat.eq_zero_or_pos f with hf0 | hfpos
    · subst hf0; simp [letLoop] at hp
    · obtain ⟨n, rfl⟩ : ∃ n, f = n + 1 := ⟨f - 1, by omega⟩
      cases bindings
      case nil =>
        simp only [letLoop] at hp
        refine ⟨1, fun g hg => ?_⟩
        obtain ⟨h, rfl⟩ : ∃ h, g = h + 1 := ⟨g - 1, by omega⟩
        simpa [letLoop] using hp
      case pair start brest =>
        cases start
        case pair s srest =>
          cases srest
          case pair e erest =>
            simp only [letLoop] at hp
            cases hcf : checkForm (SVal.pair s (SVal.pair e erest)) 0 (some 2) with
            | error err => rw [hcf] at hp; simp at hp
            | ok u =>
              rw [hcf] at hp
              simp only [exceptBind_ok] at hp
              cases h1 : seval n .plain false e env st with
              | error err => rw [h1] at hp; simp at hp
              | ok q =>
                obtain ⟨q1, q2⟩ := q
                rw [h1] at hp
                simp only [exceptBind_ok] at hp
                cases h2 : asValue q1 with
                | error err => rw [h2] at hp; simp at hp
                | ok v =>
                  rw [h2] at hp
                  simp only [exceptBind_ok] at hp
                  obtain ⟨F1, hF1⟩ := (ih n (by omega)).seval_false e env st (q1, q2) h1
                  obtain ⟨F2, hF2⟩ := (ih n (by omega)).letLoopF brest (.pair s formals)
                    (.pair v vals) env q2 p hp
                  refine ⟨max F1 F2 + 1, fun g hg => ?_⟩
                  obtain ⟨h, rfl⟩ : ∃ h, g = h + 1 := ⟨g - 1, by omega⟩
                  have e1 := hF1 h (by omega)
                  have e2 := hF2 h (by omega)
                  simp only [letLoop, hcf, exceptBind_ok, e1, h2, e2]
          all_goals simp [letLoop, checkForm, isListV, slen] at hp
        all_goals simp [letLoop, checkForm, isListV, slen] at hp
      all_goals simp [letLoop] at hp
  have hletFrame : ∀ bindings env st,
      SimExact f (fun n m => makeLetFrame n m bindings env st) := by
    intro bindings env st p hp
    rcases Nat.eq_zero_or_pos f with hf0 | hfpos
    · subst hf0; simp [makeLetFrame] at hp
    · obtain ⟨n, rfl⟩ : ∃ n, f = n + 1 := ⟨f - 1, by omega⟩
      simp only [makeLetFrame] at hp
      by_cases hl : isListV bindings
      · rw [if_neg (by simp [hl])] at hp
        obtain ⟨F1, hF1⟩ := (ih n (by omega)).letLoopF bindings .nil .nil env st p hp
        refine ⟨F1 + 1, fun g hg => ?_⟩
        obtain ⟨h, rfl⟩ : ∃ h, g = h + 1 := ⟨g - 1, by omega⟩
        have e1 := hF1 h (by omega)
        simp only [makeLetFrame]
        rw [if_neg (by simp [hl])]
        exact e1
      · rw [if_pos (by simpa using hl)] at hp
        simp at hp
  have hdefine : ∀ exprs env st, SimExact f (fun n m => doDefine n m exprs env st) := by
    intro exprs env st p hp
    rcases Nat.eq_zero_or_pos f with hf0 | hfpos
    · subst hf0; simp [doDefine] at hp
    · obtain ⟨n, rfl⟩ : ∃ n, f = n + 1 := ⟨f - 1, by omega⟩
      cases exprs
      case pair target drest =>
        cases target
        case sym s =>
          cases drest
          case pair vexpr vrest =>
            simp only [doDefine] at hp
            cases hcf : checkForm (SVal.pair (.sym s) (.pair vexpr vrest)) 2 none with
            | error err => rw [hcf] at hp; simp at hp
            | ok u =>
              rw [hcf] at hp
              simp only [exceptBind_ok] at hp
              cases hcf2 : checkForm (SVal.pair (.sym s) (.pair vexpr vrest)) 2 (some 2) with
              | error err => rw [hcf2] at hp; simp at hp
              | ok u2 =>
                rw [hcf2] at hp
                simp only [exceptBind_ok] at hp
                cases h1 : seval n .plain false vexpr env st with
                | error err => rw [h1] at hp; simp at hp
                | ok q =>
                  obtain ⟨q1, q2⟩ := q
                  rw [h1] at hp
                  simp only [exceptBind_ok] at hp
                  cases h2 : asValue q1 with
                  | error err => rw [h2] at hp; simp at hp
                  | ok v =>
                    rw [h2] at hp
                    simp only [exceptBind_ok] at hp
                    obtain ⟨F1, hF1⟩ := (ih n (by omega)).seval_false vexpr env st (q1, q2) h1
                    refine ⟨F1 + 1, fun g hg => ?_⟩
                    obtain ⟨h, rfl⟩ : ∃ h, g = h + 1 := ⟨g - 1, by omega⟩
                    have e1 := hF1 h (by omega)
                    simp only [doDefine, hcf, hcf2, exceptBind_ok, e1, h2]
                    exact hp
          all_goals simp [doDefine, checkForm, isListV, slen] at hp
        case pair thead trest =>
          cases thead
          case sym fname =>
            simp only [doDefine] at hp
            cases hcf : checkForm (SVal.pair (.pair (.sym fname) trest) drest) 2 none with
            | error err => rw [hcf] at hp; simp at hp
            | ok u =>
              rw [hcf] at hp
              simp only [exceptBind_ok] at hp
              refine ⟨1, fun g hg => ?_⟩
              obtain ⟨h, rfl⟩ : ∃ h, g = h + 1 := ⟨g - 1, by omega⟩
              simp only [doDefine, hcf, exceptBind_ok]
              exact hp
          all_goals
            simp only [doDefine] at hp
            exact (bind_no_ok hp (fun u h => by simp at h)).elim
        all_goals
          simp only [doDefine] at hp
          exact (bind_no_ok hp (fun u h => by simp at h)).elim
      all_goals simp [doDefine, checkForm, isListV, slen] at hp
  have hseq : ∀ e rest env st, SimRun f (fun n m => evalSeq n m e rest env st) := by
    intro e rest env st r st1 hp
    rcases Nat.eq_zero_or_pos f with hf0 | hfpos
    · subst hf0; simp [evalSeq] at hp
    · obtain ⟨n, rfl⟩ : ∃ n, f = n + 1 := ⟨f - 1, by omega⟩
      cases rest
      case nil =>
        simp only [evalSeq] at hp
        obtain ⟨v, hval, out, hl, F1, hF1⟩ := (ih n (by omega)).seval_true e env st r st1 hp
        refine ⟨v, hval, out, OLink_mono (by omega) hl, F1 + 1, fun g hg => ?_⟩
        obtain ⟨h, rfl⟩ : ∃ h, g = h + 1 := ⟨g - 1, by omega⟩
        have ho := hF1 h (by omega)
        simpa [evalSeq] using ho
      case pair f2 r2 =>
        simp only [evalSeq] at hp
        cases h1 : seval n .plain false e env st with
        | error err => rw [h1] at hp; simp at hp
        | ok q =>
          obtain ⟨q1, q2⟩ := q
          rw [h1] at hp
          simp only [exceptBind_ok] at hp
          obtain ⟨F1, hF1⟩ := (ih n (by omega)).seval_false e env st (q1, q2) h1
          obtain ⟨v, hval, out, hl, F2, hF2⟩ := (ih n (by omega)).evalSeqF f2 r2 env q2 r st1 hp
          refine ⟨v, hval, out, OLink_mono (by omega) hl, max F1 F2 + 1, fun g hg => ?_⟩
          obtain ⟨h, rfl⟩ : ∃ h, g = h + 1 := ⟨g - 1, by omega⟩
          have e1 := hF1 h (by omega)
          have ho := hF2 h (by omega)
          simp only [evalSeq, e1, exceptBind_ok]
          exact ho
      all_goals
        simp only [evalSeq] at hp
        exact (bind_no_ok hp (fun u h => by obtain ⟨u1, u2⟩ := u; simp at h)).elim
  have hall : ∀ exprs env st, SimRun f (fun n m => evalAll n m exprs env st) := by
    intro exprs env st r st1 hp
    rcases Nat.eq_zero_or_pos f with hf0 | hfpos
    · subst hf0; simp [evalAll] at hp
    · obtain ⟨n, rfl⟩ : ∃ n, f = n + 1 := ⟨f - 1, by omega⟩
      cases exprs
      case nil =>
        simp only [evalAll, Except.ok.injEq, Prod.mk.injEq] at hp
        refine ⟨.undef, hp.1.symm, (.val .undef, st), Or.inl (by rw [hp.2]), 1, fun g hg => ?_⟩
        obtain ⟨h, rfl⟩ : ∃ h, g = h + 1 := ⟨g - 1, by omega⟩
        simp [evalAll]
      case pair first brest =>
        simp only [evalAll] at hp
        obtain ⟨v, hval, out, hl, F1, hF1⟩ := (ih n (by omega)).evalSeqF first brest env st r st1 hp
        refine ⟨v, hval, out, OLink_mono (by omega) hl, F1 + 1, fun g hg => ?_⟩
        obtain ⟨h, rfl⟩ : ∃ h, g = h + 1 := ⟨g - 1, by omega⟩
        have ho := hF1 h (by omega)
        simpa [evalAll] using ho
      all_goals simp [evalAll] at hp
  have hbegin : ∀ exprs env st, SimRun f (fun n m => doBegin n m exprs env st) := by
    intro exprs env st r st1 hp
    rcases Nat.eq_zero_or_pos f with hf0 | hfpos
    · subst hf0; simp [doBegin] at hp
    · obtain ⟨n, rfl⟩ : ∃ n, f = n + 1 := ⟨f - 1, by omega⟩
      simp only [doBegin] at hp
      cases hcf : checkForm exprs 1 none with
      | error err => rw [hcf] at hp; simp at hp
      | ok u =>
        rw [hcf] at hp
        simp only [exceptBind_ok] at hp
        obtain ⟨v, hval, out, hl, F1, hF1⟩ := (ih n (by omega)).evalAllF exprs env st r st1 hp
        refine ⟨v, hval, out, OLink_mono (by omega) hl, F1 + 1, fun g hg => ?_⟩
        obtain ⟨h, rfl⟩ : ∃ h, g = h + 1 := ⟨g - 1, by omega⟩
        have ho := hF1 h (by omega)
        simp only [doBegin, hcf, exceptBind_ok]
        exact ho
  have hif : ∀ exprs env st, SimRun f (fun n m => doIf n m exprs env st) := by
    intro exprs env st r st1 hp
    rcases Nat.eq_zero_or_pos f with hf0 | hfpos
    · subst hf0; simp [doIf] at hp
    · obtain ⟨n, rfl⟩ : ∃ n, f = n + 1 := ⟨f - 1, by omega⟩
      cases exprs
      case pair test rest =>
        cases rest
        case pair conseq crest =>
          simp only [doIf] at hp
          cases hcf : checkForm (SVal.pair test (.pair conseq crest)) 2 (some 3) with
          | error err => rw [hcf] at hp; simp at hp
          | ok u =>
            rw [hcf] at hp
            simp only [exceptBind_ok] at hp
            cases h1 : seval n .plain false test env st with
            | error err => rw [h1] at hp; simp at hp
            | ok q =>
              obtain ⟨q1, q2⟩ := q
              rw [h1] at hp
              simp only [exceptBind_ok] at hp
              obtain ⟨F1, hF1⟩ := (ih n (by omega)).seval_false test env st (q1, q2) h1
              by_cases htr : truthyRes q1 = true
              · rw [if_pos htr] at hp
                obtain ⟨v, hval, out, hl, F2, hF2⟩ := (ih n (by omega)).seval_true conseq env q2 r st1 hp
                refine ⟨v, hval, out, OLink_mono (by omega) hl, max F1 F2 + 1, fun g hg => ?_⟩
                obtain ⟨h, rfl⟩ : ∃ h, g = h + 1 := ⟨g - 1, by omega⟩
                have e1 := hF1 h (by omega)
                have ho := hF2 h (by omega)
                simp only [doIf, hcf, exceptBind_ok, e1, if_pos htr]
                exact ho
              · rw [if_neg htr] at hp
                rcases crest with _ | _ | _ | _ | _ | ⟨alt, arest⟩ | _ | _ | _ | _
                · exact absurd hcf (by simp [checkForm, isListV])
                · exact absurd hcf (by simp [checkForm, isListV])
                · exact absurd hcf (by simp [checkForm, isListV])
                · exact absurd hcf (by simp [checkForm, isListV])
                ·
                  simp only [slen, Option.map] at hp
                  simp only [Except.ok.injEq, Prod.mk.injEq] at hp
                  refine ⟨.undef, hp.1.symm, (.val .undef, q2), Or.inl (by rw [hp.2]), F1 + 1,
                    fun g hg => ?_⟩
                  obtain ⟨h, rfl⟩ : ∃ h, g = h + 1 := ⟨g - 1, by omega⟩
                  have e1 := hF1 h (by omega)
                  simp only [doIf, hcf, exceptBind_ok, e1, if_neg htr, slen, Option.map]
                ·
                  rcases arest with _ | _ | _ | _ | _ | ⟨a5, a6⟩ | _ | _ | _ | _
                  · exact absurd hcf (by simp [checkForm, isListV])
                  · exact absurd hcf (by simp [checkForm, isListV])
                  · exact absurd hcf (by simp [checkForm, isListV])
                  · exact absurd hcf (by simp [checkForm, isListV])
                  ·
                    simp only [slen, Option.map] at hp
                    obtain ⟨v, hval, out, hl, F2, hF2⟩ :=
                      (ih n (by omega)).seval_true alt env q2 r st1 hp
                    refine ⟨v, hval, out, OLink_mono (by omega) hl, max F1 F2 + 1, fun g hg => ?_⟩
                    obtain ⟨h, rfl⟩ : ∃ h, g = h + 1 := ⟨g - 1, by omega⟩
                    have e1 := hF1 h (by omega)
                    have ho := hF2 h (by omega)
                    simp only [doIf, hcf, exceptBind_ok, e1, if_neg htr, slen, Option.map]
                    exact ho
                  ·
                    obtain ⟨L, hL, _, hm⟩ := checkForm_ok_isList hcf
                    have := hm 3 rfl
                    simp only [slen, Option.map_eq_some'] at hL
                    obtain ⟨m1, ⟨m2, ⟨m3, hm3, rfl⟩, rfl⟩, rfl⟩ := hL
                    omega
                  · exact absurd hcf (by simp [checkForm, isListV])
                  · exact absurd hcf (by simp [checkForm, isListV])
                  · exact absurd hcf (by simp [checkForm, isListV])
                  · exact absurd hcf (by simp [checkForm, isListV])
                · exact absurd hcf (by simp [checkForm, isListV])
                · exact absurd hcf (by simp [checkForm, isListV])
                · exact absurd hcf (by simp [checkForm, isListV])
                · exact absurd hcf (by simp [checkForm, isListV])
        all_goals simp [doIf, checkForm, isListV, slen] at hp
      all_goals simp [doIf, checkForm, isListV, slen] at hp
  have handLoop : ∀ e rest env st, SimRun f (fun n m => andLoop n m e rest env st) := by
    intro e rest env st r st1 hp
    rcases Nat.eq_zero_or_pos f with hf0 | hfpos
    · subst hf0; simp [andLoop] at hp
    · obtain ⟨n, rfl⟩ : ∃ n, f = n + 1 := ⟨f - 1, by omega⟩
      cases rest
      case nil =>
        simp only [andLoop] at hp
        obtain ⟨v, hval, out, hl, F1, hF1⟩ := (ih n (by omega)).seval_true e env st r st1 hp
        refine ⟨v, hval, out, OLink_mono (by omega) hl, F1 + 1, fun g hg => ?_⟩
        obtain ⟨h, rfl⟩ : ∃ h, g = h + 1 := ⟨g - 1, by omega⟩
        have ho := hF1 h (by omega)
        simpa [andLoop] using ho
      case pair f2 r2 =>
        simp only [andLoop] at hp
        cases h1 : seval n .plain false e env st with
        | error err => rw [h1] at hp; simp at hp
        | ok q =>
          obtain ⟨q1, q2⟩ := q
          rw [h1] at hp
          simp only [exceptBind_ok] at hp
          obtain ⟨F1, hF1⟩ := (ih n (by omega)).seval_false e env st (q1, q2) h1
          by_cases hfa : falsyRes q1 = true
          · rw [if_pos hfa] at hp
            simp only [Except.ok.injEq, Prod.mk.injEq] at hp
            refine ⟨.boolean false, hp.1.symm, (.val (.boolean false), q2), Or.inl (by rw [hp.2]), F1 + 1, fun g hg => ?_⟩
            obtain ⟨h, rfl⟩ : ∃ h, g = h + 1 := ⟨g - 1, by omega⟩
            have e1 := hF1 h (by omega)
            simp only [andLoop, e1, exceptBind_ok, if_pos hfa]
          · rw [if_neg hfa] at hp
            obtain ⟨v, hval, out, hl, F2, hF2⟩ := (ih n (by omega)).andLoopF f2 r2 env q2 r st1 hp
            refine ⟨v, hval, out, OLink_mono (by omega) hl, max F1 F2 + 1, fun g hg => ?_⟩
            obtain ⟨h, rfl⟩ : ∃ h, g = h + 1 := ⟨g - 1, by omega⟩
            have e1 := hF1 h (by omega)
            have ho := hF2 h (by omega)
            simp only [andLoop, e1, exceptBind_ok, if_neg hfa]
            exact ho
      all_goals
        simp only [andLoop] at hp
        cases h1 : seval n .plain false e env st with
        | error err => rw [h1] at hp; simp at hp
        | ok q =>
          obtain ⟨q1, q2⟩ := q
          rw [h1] at hp
          simp only [exceptBind_ok] at hp
          by_cases hfa : falsyRes q1 = true
          · rw [if_pos hfa] at hp
            simp only [Except.ok.injEq, Prod.mk.injEq] at hp
            obtain ⟨F1, hF1⟩ := (ih n (by omega)).seval_false e env st (q1, q2) h1
            refine ⟨.boolean false, hp.1.symm, (.val (.boolean false), q2), Or.inl (by rw [hp.2]), F1 + 1, fun g hg => ?_⟩
            obtain ⟨h, rfl⟩ : ∃ h, g = h + 1 := ⟨g - 1, by omega⟩
            have e1 := hF1 h (by omega)
            simp only [andLoop, e1, exceptBind_ok, if_pos hfa]
          · rw [if_neg hfa] at hp
            simp at hp
  have hand : ∀ exprs env st, SimRun f (fun n m => doAnd n m exprs env st) := by
    intro exprs env st r st1 hp
    rcases Nat.eq_zero_or_pos f with hf0 | hfpos
    · subst hf0; simp [doAnd] at hp
    · obtain ⟨n, rfl⟩ : ∃ n, f = n + 1 := ⟨f - 1, by omega⟩
      simp only [doAnd] at hp
      cases hsl : slen exprs with
      | none => rw [hsl] at hp; simp at hp
      | some L =>
        rw [hsl] at hp
        cases L with
        | zero =>
          dsimp only at hp
          simp only [Except.ok.injEq, Prod.mk.injEq] at hp
          refine ⟨.boolean true, hp.1.symm, (.val (.boolean true), st), Or.inl (by rw [hp.2]), 1,
            fun g hg => ?_⟩
          obtain ⟨h, rfl⟩ : ∃ h, g = h + 1 := ⟨g - 1, by omega⟩
          simp [doAnd, hsl]
        | succ L2 =>
          rcases exprs with _ | _ | _ | _ | _ | ⟨first, brest⟩ | _ | _ | _ | _
          · simp [slen] at hsl
          · simp [slen] at hsl
          · simp [slen] at hsl
          · simp [slen] at hsl
          · simp [slen] at hsl
          · dsimp only at hp
            obtain ⟨v, hval, out, hl, F1, hF1⟩ := (ih n (by omega)).andLoopF first brest env st r st1 hp
            refine ⟨v, hval, out, OLink_mono (by omega) hl, F1 + 1, fun g hg => ?_⟩
            obtain ⟨h, rfl⟩ : ∃ h, g = h + 1 := ⟨g - 1, by omega⟩
            have ho := hF1 h (by omega)
            simp only [doAnd, hsl]
            exact ho
          · simp [slen] at hsl
          · simp [slen] at hsl
          · simp [slen] at hsl
          · simp [slen] at hsl
  have horLoop : ∀ e rest env st, SimRun f (fun n m => orLoop n m e rest env st) := by
    intro e rest env st r st1 hp
    rcases Nat.eq_zero_or_pos f with hf0 | hfpos
    · subst hf0; simp [orLoop] at hp
    · obtain ⟨n, rfl⟩ : ∃ n, f = n + 1 := ⟨f - 1, by omega⟩
      cases rest
      case nil =>
        simp only [orLoop] at hp
        obtain ⟨v, hval, out, hl, F1, hF1⟩ := (ih n (by omega)).seval_true e env st r st1 hp
        refine ⟨v, hval, out, OLink_mono (by omega) hl, F1 + 1, fun g hg => ?_⟩
        obtain ⟨h, rfl⟩ : ∃ h, g = h + 1 := ⟨g - 1, by omega⟩
        have ho := hF1 h (by omega)
        simpa [orLoop] using ho
      case pair f2 r2 =>
        simp only [orLoop] at hp
        cases h1 : seval n .plain false e env st with
        | error err => rw [h1] at hp; simp at hp
        | ok q =>
          obtain ⟨q1, q2⟩ := q
          rw [h1] at hp
          simp only [exceptBind_ok] at hp
          obtain ⟨F1, hF1⟩ := (ih n (by omega)).seval_false e env st (q1, q2) h1
          by_cases htr : truthyRes q1 = true
          · rw [if_pos htr] at hp
            simp only [Except.ok.injEq, Prod.mk.injEq] at hp
            obtain ⟨v, hq1⟩ := seval_opt_false_no_suspend (hF1 F1 (le_refl F1))
            refine ⟨v, by rw [← hp.1, hq1], (q1, q2), Or.inl (by rw [hq1, hp.2]), F1 + 1, fun g hg => ?_⟩
            obtain ⟨h, rfl⟩ : ∃ h, g = h + 1 := ⟨g - 1, by omega⟩
            have e1 := hF1 h (by omega)
            simp only [orLoop, e1, exceptBind_ok, if_pos htr]
          · rw [if_neg htr] at hp
            obtain ⟨v, hval, out, hl, F2, hF2⟩ := (ih n (by omega)).orLoopF f2 r2 env q2 r st1 hp
            refine ⟨v, hval, out, OLink_mono (by omega) hl, max F1 F2 + 1, fun g hg => ?_⟩
            obtain ⟨h, rfl⟩ : ∃ h, g = h + 1 := ⟨g - 1, by omega⟩
            have e1 := hF1 h (by omega)
            have ho := hF2 h (by omega)
            simp only [orLoop, e1, exceptBind_ok, if_neg htr]
            exact ho
      all_goals
        simp only [orLoop] at hp
        cases h1 : seval n .plain false e env st with
        | error err => rw [h1] at hp; simp at hp
        | ok q =>
          obtain ⟨q1, q2⟩ := q
          rw [h1] at hp
          simp only [exceptBind_ok] at hp
          by_cases htr : truthyRes q1 = true
          · rw [if_pos htr] at hp
            simp only [Except.ok.injEq, Prod.mk.injEq] at hp
            obtain ⟨F1, hF1⟩ := (ih n (by omega)).seval_false e env st (q1, q2) h1
            obtain ⟨v, hq1⟩ := seval_opt_false_no_suspend (hF1 F1 (le_refl F1))
            refine ⟨v, by rw [← hp.1, hq1], (q1, q2), Or.inl (by rw [hq1, hp.2]), F1 + 1,
              fun g hg => ?_⟩
            obtain ⟨h, rfl⟩ : ∃ h, g = h + 1 := ⟨g - 1, by omega⟩
            have e1 := hF1 h (by omega)
            simp only [orLoop, e1, exceptBind_ok, if_pos htr]
          · rw [if_neg htr] at hp
            simp at hp
  have hor : ∀ exprs env st, SimRun f (fun n m => doOr n m exprs env st) := by
    intro exprs env st r st1 hp
    rcases Nat.eq_zero_or_pos f with hf0 | hfpos
    · subst hf0; simp [doOr] at hp
    · obtain ⟨n, rfl⟩ : ∃ n, f = n + 1 := ⟨f - 1, by omega⟩
      simp only [doOr] at hp
      cases hsl : slen exprs with
      | none => rw [hsl] at hp; simp at hp
      | some L =>
        rw [hsl] at hp
        cases L with
        | zero =>
          dsimp only at hp
          simp only [Except.ok.injEq, Prod.mk.injEq] at hp
          refine ⟨.boolean false, hp.1.symm, (.val (.boolean false), st), Or.inl (by rw [hp.2]), 1,
            fun g hg => ?_⟩
          obtain ⟨h, rfl⟩ : ∃ h, g = h + 1 := ⟨g - 1, by omega⟩
          simp [doOr, hsl]
        | succ L2 =>
          rcases exprs with _ | _ | _ | _ | _ | ⟨first, brest⟩ | _ | _ | _ | _
          · simp [slen] at hsl
          · simp [slen] at hsl
          · simp [slen] at hsl
          · simp [slen] at hsl
          · simp [slen] at hsl
          · dsimp only at hp
            obtain ⟨v, hval, out, hl, F1, hF1⟩ := (ih n (by omega)).orLoopF first brest env st r st1 hp
            refine ⟨v, hval, out, OLink_mono (by omega) hl, F1 + 1, fun g hg => ?_⟩
            obtain ⟨h, rfl⟩ : ∃ h, g = h + 1 := ⟨g - 1, by omega⟩
            have ho := hF1 h (by omega)
            simp only [doOr, hsl]
            exact ho
          · simp [slen] at hsl
          · simp [slen] at hsl
          · simp [slen] at hsl
          · simp [slen] at hsl
  have hcondLoop : ∀ nc i exprs env st,
      SimRun f (fun n m => condLoop n m nc i exprs env st) := by
    intro nc i exprs env st r st1 hp
    rcases Nat.eq_zero_or_pos f with hf0 | hfpos
    · subst hf0; simp [condLoop] at hp
    · obtain ⟨n, rfl⟩ : ∃ n, f = n + 1 := ⟨f - 1, by omega⟩
      cases exprs
      case nil =>
        simp only [condLoop, Except.ok.injEq, Prod.mk.injEq] at hp
        refine ⟨.undef, hp.1.symm, (.val .undef, st), Or.inl (by rw [hp.2]), 1, fun g hg => ?_⟩
        obtain ⟨h, rfl⟩ : ∃ h, g = h + 1 := ⟨g - 1, by omega⟩
        simp [condLoop]
      case pair clause rest =>
        cases clause
        case pair chead cbody =>
          simp only [condLoop] at hp
          cases hcf : checkForm (SVal.pair chead cbody) 1 none with
          | error err => rw [hcf] at hp; simp at hp
          | ok u =>
            rw [hcf] at hp
            simp only [exceptBind_ok] at hp
            by_cases helse : chead = SVal.sym "else"
            · rw [if_pos helse] at hp
              by_cases hi : i < nc - 1
              · rw [if_pos hi] at hp; simp at hp
              · rw [if_neg hi] at hp
                obtain ⟨v, hval, out, hl, F1, hF1⟩ := (ih n (by omega)).beginF cbody env st r st1 hp
                refine ⟨v, hval, out, OLink_mono (by omega) hl, F1 + 1, fun g hg => ?_⟩
                obtain ⟨h, rfl⟩ : ∃ h, g = h + 1 := ⟨g - 1, by omega⟩
                have ho := hF1 h (by omega)
                simp only [condLoop, hcf, exceptBind_ok, if_pos helse, if_neg hi]
                exact ho
            · rw [if_neg helse] at hp
              cases h1 : seval n .plain false chead env st with
              | error err => rw [h1] at hp; simp at hp
              | ok q =>
                obtain ⟨q1, q2⟩ := q
                rw [h1] at hp
                simp only [exceptBind_ok] at hp
                obtain ⟨F1, hF1⟩ := (ih n (by omega)).seval_false chead env st (q1, q2) h1
                by_cases htr : truthyRes q1 = true
                · rw [if_pos htr] at hp
                  by_cases hb : cbody = SVal.nil
                  · rw [if_pos hb] at hp
                    simp only [Except.ok.injEq, Prod.mk.injEq] at hp
                    obtain ⟨v, hq1⟩ := seval_opt_false_no_suspend (hF1 F1 (le_refl F1))
                    refine ⟨v, by rw [← hp.1, hq1], (q1, q2), Or.inl (by rw [hq1, hp.2]), F1 + 1,
                      fun g hg => ?_⟩
                    obtain ⟨h, rfl⟩ : ∃ h, g = h + 1 := ⟨g - 1, by omega⟩
                    have e1 := hF1 h (by omega)
                    simp only [condLoop, hcf, exceptBind_ok, if_neg helse, e1, if_pos htr,
                      if_pos hb]
                  · rw [if_neg hb] at hp
                    obtain ⟨v, hval, out, hl, F2, hF2⟩ := (ih n (by omega)).beginF cbody env q2 r st1 hp
                    refine ⟨v, hval, out, OLink_mono (by omega) hl, max F1 F2 + 1, fun g hg => ?_⟩
                    obtain ⟨h, rfl⟩ : ∃ h, g = h + 1 := ⟨g - 1, by omega⟩
                    have e1 := hF1 h (by omega)
                    have ho := hF2 h (by omega)
                    simp only [condLoop, hcf, exceptBind_ok, if_neg helse, e1, if_pos htr,
                      if_neg hb]
                    exact ho
                · rw [if_neg htr] at hp
                  obtain ⟨v, hval, out, hl, F2, hF2⟩ :=
                    (ih n (by omega)).condLoopF nc (i + 1) rest env q2 r st1 hp
                  refine ⟨v, hval, out, OLink_mono (by omega) hl, max F1 F2 + 1, fun g hg => ?_⟩
                  obtain ⟨h, rfl⟩ : ∃ h, g = h + 1 := ⟨g - 1, by omega⟩
                  have e1 := hF1 h (by omega)
                  have ho := hF2 h (by omega)
                  simp only [condLoop, hcf, exceptBind_ok, if_neg helse, e1, if_neg htr]
                  exact ho
        all_goals simp [condLoop, checkForm, isListV, slen] at hp
      all_goals simp [condLoop] at hp
  have hcond : ∀ exprs env st, SimRun f (fun n m => doCond n m exprs env st) := by
    intro exprs env st r st1 hp
    rcases Nat.eq_zero_or_pos f with hf0 | hfpos
    · subst hf0; simp [doCond] at hp
    · obtain ⟨n, rfl⟩ : ∃ n, f = n + 1 := ⟨f - 1, by omega⟩
      simp only [doCond] at hp
      cases hsl : slen exprs with
      | none => rw [hsl] at hp; simp at hp
      | some nc =>
        rw [hsl] at hp
        dsimp only at hp
        obtain ⟨v, hval, out, hl, F1, hF1⟩ := (ih n (by omega)).condLoopF nc 0 exprs env st r st1 hp
        refine ⟨v, hval, out, OLink_mono (by omega) hl, F1 + 1, fun g hg => ?_⟩
        obtain ⟨h, rfl⟩ : ∃ h, g = h + 1 := ⟨g - 1, by omega⟩
        have ho := hF1 h (by omega)
        simp only [doCond, hsl]
        exact ho
  have hlet : ∀ exprs env st, SimRun f (fun n m => doLet n m exprs env st) := by
    intro exprs env st r st1 hp
    rcases Nat.eq_zero_or_pos f with hf0 | hfpos
    · subst hf0; simp [doLet] at hp
    · obtain ⟨n, rfl⟩ : ∃ n, f = n + 1 := ⟨f - 1, by omega⟩
      cases exprs
      case pair bindings body =>
        simp only [doLet] at hp
        cases hcf : checkForm (SVal.pair bindings body) 2 none with
        | error err => rw [hcf] at hp; simp at hp
        | ok u =>
          rw [hcf] at hp
          simp only [exceptBind_ok] at hp
          cases hmf : makeLetFrame n .plain bindings env st with
          | error err => rw [hmf] at hp; simp at hp
          | ok q =>
            obtain ⟨q1, q2⟩ := q
            rw [hmf] at hp
            simp only [exceptBind_ok] at hp
            obtain ⟨F1, hF1⟩ := (ih n (by omega)).letFrameF bindings env st (q1, q2) hmf
            obtain ⟨v, hval, out, hl, F2, hF2⟩ := (ih n (by omega)).evalAllF body q1 q2 r st1 hp
            refine ⟨v, hval, out, OLink_mono (by omega) hl, max F1 F2 + 1, fun g hg => ?_⟩
            obtain ⟨h, rfl⟩ : ∃ h, g = h + 1 := ⟨g - 1, by omega⟩
            have e1 := hF1 h (by omega)
            have ho := hF2 h (by omega)
            simp only [doLet, hcf, exceptBind_ok, e1]
            exact ho
      all_goals simp [doLet, checkForm, isListV, slen] at hp
  have hcall : ∀ proc argExprs env st,
      SimRun f (fun n m => evalCall n m proc argExprs env st) := by
    intro proc argExprs env st r st1 hp
    rcases Nat.eq_zero_or_pos f with hf0 | hfpos
    · subst hf0; simp [evalCall] at hp
    · obtain ⟨n, rfl⟩ : ∃ n, f = n + 1 := ⟨f - 1, by omega⟩
      simp only [evalCall] at hp
      cases ha : evalArgs n .plain argExprs env st with
      | error err => rw [ha] at hp; simp at hp
      | ok q =>
        obtain ⟨q1, q2⟩ := q
        rw [ha] at hp
        simp only [exceptBind_ok] at hp
        obtain ⟨F1, hF1⟩ := (ih n (by omega)).argsF argExprs env st (q1, q2) ha
        obtain ⟨v, hval, out, hl, F2, hF2⟩ := (ih n (by omega)).applyF proc q1 env q2 r st1 hp
        refine ⟨v, hval, out, OLink_mono (by omega) hl, max F1 F2 + 1, fun g hg => ?_⟩
        obtain ⟨h, rfl⟩ : ∃ h, g = h + 1 := ⟨g - 1, by omega⟩
        have e1 := hF1 h (by omega)
        have ho := hF2 h (by omega)
        simp only [evalCall, e1, exceptBind_ok]
        exact ho
  have happly : ∀ proc args env st, SimRun f (fun n m => applyProc n m proc args env st) := by
    intro proc args env st r st1 hp
    rcases Nat.eq_zero_or_pos f with hf0 | hfpos
    · subst hf0; simp [applyProc] at hp
    · obtain ⟨n, rfl⟩ : ∃ n, f = n + 1 := ⟨f - 1, by omega⟩
      cases proc
      case primitive op nm =>
        simp only [applyProc] at hp
        cases hth : toHostList args with
        | none => rw [hth] at hp; simp at hp
        | some hargs =>
          rw [hth] at hp
          dsimp only at hp
          cases hps : primSem op hargs with
          | error err => rw [hps] at hp; simp at hp
          | ok v =>
            rw [hps] at hp
            dsimp only at hp
            simp only [Except.ok.injEq, Prod.mk.injEq] at hp
            refine ⟨v, hp.1.symm, (.val v, st), Or.inl (by rw [hp.2]), 1, fun g hg => ?_⟩
            obtain ⟨h, rfl⟩ : ∃ h, g = h + 1 := ⟨g - 1, by omega⟩
            simp only [applyProc, hth, hps]
      case lambdaP formals body defEnv =>
        simp only [applyProc] at hp
        cases hmk : lambdaMakeCallFrame formals defEnv args env st with
        | error err => rw [hmk] at hp; simp at hp
        | ok q =>
          obtain ⟨q1, q2⟩ := q
          rw [hmk] at hp
          simp only [exceptBind_ok] at hp
          obtain ⟨v, hval, out, hl, F1, hF1⟩ := (ih n (by omega)).evalAllF body q1 q2 r st1 hp
          refine ⟨v, hval, out, OLink_mono (by omega) hl, F1 + 1, fun g hg => ?_⟩
          obtain ⟨h, rfl⟩ : ∃ h, g = h + 1 := ⟨g - 1, by omega⟩
          have ho := hF1 h (by omega)
          simp only [applyProc, hmk, exceptBind_ok]
          exact ho
      case muP formals body =>
        simp only [applyProc] at hp
        cases hmk : muMakeCallFrame formals args env st with
        | error err => rw [hmk] at hp; simp at hp
        | ok q =>
          obtain ⟨q1, q2⟩ := q
          rw [hmk] at hp
          simp only [exceptBind_ok] at hp
          obtain ⟨v, hval, out, hl, F1, hF1⟩ := (ih n (by omega)).evalAllF body q1 q2 r st1 hp
          refine ⟨v, hval, out, OLink_mono (by omega) hl, F1 + 1, fun g hg => ?_⟩
          obtain ⟨h, rfl⟩ : ∃ h, g = h + 1 := ⟨g - 1, by omega⟩
          have ho := hF1 h (by omega)
          simp only [applyProc, hmk, exceptBind_ok]
          exact ho
      all_goals simp [applyProc] at hp
  have hform : ∀ name rest env st, SimRun f (fun n m => doForm n m name rest env st) := by
    intro name rest env st r st1 hp
    rcases Nat.eq_zero_or_pos f with hf0 | hfpos
    · subst hf0; simp [doForm] at hp
    · obtain ⟨n, rfl⟩ : ∃ n, f = n + 1 := ⟨f - 1, by omega⟩
      simp only [doForm] at hp
      by_cases hand : name = "and"
      · rw [if_pos hand] at hp
        obtain ⟨v, hval, out, hl, F1, hF1⟩ := (ih n (by omega)).andF rest env st r st1 hp
        refine ⟨v, hval, out, OLink_mono (by omega) hl, F1 + 1, fun g hg => ?_⟩
        obtain ⟨h, rfl⟩ : ∃ h, g = h + 1 := ⟨g - 1, by omega⟩
        have ho := hF1 h (by omega)
        simp only [doForm, if_pos hand]
        exact ho
      by_cases hbegin : name = "begin"
      · rw [if_neg hand, if_pos hbegin] at hp
        obtain ⟨v, hval, out, hl, F1, hF1⟩ := (ih n (by omega)).beginF rest env st r st1 hp
        refine ⟨v, hval, out, OLink_mono (by omega) hl, F1 + 1, fun g hg => ?_⟩
        obtain ⟨h, rfl⟩ : ∃ h, g = h + 1 := ⟨g - 1, by omega⟩
        have ho := hF1 h (by omega)
        simp only [doForm, if_neg hand, if_pos hbegin]
        exact ho
      by_cases hcond : name = "cond"
      · rw [if_neg hand, if_neg hbegin, if_pos hcond] at hp
        obtain ⟨v, hval, out, hl, F1, hF1⟩ := (ih n (by omega)).condF rest env st r st1 hp
        refine ⟨v, hval, out, OLink_mono (by omega) hl, F1 + 1, fun g hg => ?_⟩
        obtain ⟨h, rfl⟩ : ∃ h, g = h + 1 := ⟨g - 1, by omega⟩
        have ho := hF1 h (by omega)
        simp only [doForm, if_neg hand, if_neg hbegin, if_pos hcond]
        exact ho
      by_cases hdefine : name = "define"
      · rw [if_neg hand, if_neg hbegin, if_neg hcond, if_pos hdefine] at hp
        obtain ⟨F1, hF1⟩ := (ih n (by omega)).defineF rest env st (r, st1) hp
        obtain ⟨v, hval⟩ := doDefine_val hp
        refine ⟨v, hval, (r, st1), Or.inl (by rw [hval]), F1 + 1, fun g hg => ?_⟩
        obtain ⟨h, rfl⟩ : ∃ h, g = h + 1 := ⟨g - 1, by omega⟩
        have e1 := hF1 h (by omega)
        simp only [doForm, if_neg hand, if_neg hbegin, if_neg hcond, if_pos hdefine]
        exact e1
      by_cases hif : name = "if"
      · rw [if_neg hand, if_neg hbegin, if_neg hcond, if_neg hdefine, if_pos hif] at hp
        obtain ⟨v, hval, out, hl, F1, hF1⟩ := (ih n (by omega)).ifF rest env st r st1 hp
        refine ⟨v, hval, out, OLink_mono (by omega) hl, F1 + 1, fun g hg => ?_⟩
        obtain ⟨h, rfl⟩ : ∃ h, g = h + 1 := ⟨g - 1, by omega⟩
        have ho := hF1 h (by omega)
        simp only [doForm, if_neg hand, if_neg hbegin, if_neg hcond, if_neg hdefine, if_pos hif]
        exact ho
      by_cases hlambda : name = "lambda"
      · rw [if_neg hand, if_neg hbegin, if_neg hcond, if_neg hdefine, if_neg hif, if_pos hlambda] at hp
        cases hlam : doLambdaForm rest env with
        | error err => rw [hlam] at hp; simp at hp
        | ok v =>
          rw [hlam] at hp
          simp only [exceptMap_ok, Except.ok.injEq, Prod.mk.injEq] at hp
          refine ⟨v, hp.1.symm, (Res.val v, st), Or.inl (by rw [hp.2]), 1, fun g hg => ?_⟩
          obtain ⟨h, rfl⟩ : ∃ h, g = h + 1 := ⟨g - 1, by omega⟩
          simp only [doForm, if_neg hand, if_neg hbegin, if_neg hcond, if_neg hdefine, if_neg hif, if_pos hlambda, hlam, exceptMap_ok]
      by_cases hlet : name = "let"
      · rw [if_neg hand, if_neg hbegin, if_neg hcond, if_neg hdefine, if_neg hif, if_neg hlambda, if_pos hlet] at hp
        obtain ⟨v, hval, out, hl, F1, hF1⟩ := (ih n (by omega)).letF rest env st r st1 hp
        refine ⟨v, hval, out, OLink_mono (by omega) hl, F1 + 1, fun g hg => ?_⟩
        obtain ⟨h, rfl⟩ : ∃ h, g = h + 1 := ⟨g - 1, by omega⟩
        have ho := hF1 h (by omega)
        simp only [doForm, if_neg hand, if_neg hbegin, if_neg hcond, if_neg hdefine, if_neg hif, if_neg hlambda, if_pos hlet]
        exact ho
      by_cases hor : name = "or"
      · rw [if_neg hand, if_neg hbegin, if_neg hcond, if_neg hdefine, if_neg hif, if_neg hlambda, if_neg hlet, if_pos hor] at hp
        obtain ⟨v, hval, out, hl, F1, hF1⟩ := (ih n (by omega)).orF rest env st r st1 hp
        refine ⟨v, hval, out, OLink_mono (by omega) hl, F1 + 1, fun g hg => ?_⟩
        obtain ⟨h, rfl⟩ : ∃ h, g = h + 1 := ⟨g - 1, by omega⟩
        have ho := hF1 h (by omega)
        simp only [doForm, if_neg hand, if_neg hbegin, if_neg hcond, if_neg hdefine, if_neg hif, if_neg hlambda, if_neg hlet, if_pos hor]
        exact ho
      by_cases hquote : name = "quote"
      · rw [if_neg hand, if_neg hbegin, if_neg hcond, if_neg hdefine, if_neg hif, if_neg hlambda, if_neg hlet, if_neg hor, if_pos hquote] at hp
        cases hlam : doQuote rest with
        | error err => rw [hlam] at hp; simp at hp
        | ok v =>
          rw [hlam] at hp
          simp only [exceptMap_ok, Except.ok.injEq, Prod.mk.injEq] at hp
          refine ⟨v, hp.1.symm, (Res.val v, st), Or.inl (by rw [hp.2]), 1, fun g hg => ?_⟩
          obtain ⟨h, rfl⟩ : ∃ h, g = h + 1 := ⟨g - 1, by omega⟩
          simp only [doForm, if_neg hand, if_neg hbegin, if_neg hcond, if_neg hdefine, if_neg hif, if_neg hlambda, if_neg hlet, if_neg hor, if_pos hquote, hlam, exceptMap_ok]
      by_cases hmu : name = "mu"
      · rw [if_neg hand, if_neg hbegin, if_neg hcond, if_neg hdefine, if_neg hif, if_neg hlambda, if_neg hlet, if_neg hor, if_neg hquote, if_pos hmu] at hp
        cases hlam : doMuForm rest with
        | error err => rw [hlam] at hp; simp at hp
        | ok v =>
          rw [hlam] at hp
          simp only [exceptMap_ok, Except.ok.injEq, Prod.mk.injEq] at hp
          refine ⟨v, hp.1.symm, (Res.val v, st), Or.inl (by rw [hp.2]), 1, fun g hg => ?_⟩
          obtain ⟨h, rfl⟩ : ∃ h, g = h + 1 := ⟨g - 1, by omega⟩
          simp only [doForm, if_neg hand, if_neg hbegin, if_neg hcond, if_neg hdefine, if_neg hif, if_neg hlambda, if_neg hlet, if_neg hor, if_neg hquote, if_pos hmu, hlam, exceptMap_ok]
      · rw [if_neg hand, if_neg hbegin, if_neg hcond, if_neg hdefine, if_neg hif, if_neg hlambda, if_neg hlet, if_neg hor, if_neg hquote, if_neg hmu] at hp
        simp at hp
  have hdisp : ∀ e env st, SimRun f (fun n m => dispatch n m e env st) := by
    intro e env st r st1 hp
    rcases Nat.eq_zero_or_pos f with hf0 | hfpos
    · subst hf0; simp [dispatch] at hp
    · obtain ⟨n, rfl⟩ : ∃ n, f = n + 1 := ⟨f - 1, by omega⟩
      cases e
      case pair first rest =>
        simp only [dispatch] at hp
        by_cases hl : isListV (SVal.pair first rest) = true
        · rw [if_neg (by simp [hl])] at hp
          by_cases hsf : isSpecialForm first = true
          · rw [if_pos hsf] at hp
            obtain ⟨v, hval, out, hlk, F1, hF1⟩ :=
              (ih n (by omega)).form (symName first) rest env st r st1 hp
            refine ⟨v, hval, out, OLink_mono (by omega) hlk, F1 + 1, fun g hg => ?_⟩
            obtain ⟨h, rfl⟩ : ∃ h, g = h + 1 := ⟨g - 1, by omega⟩
            have ho := hF1 h (by omega)
            simp only [dispatch]
            rw [if_neg (by simp [hl]), if_pos hsf]
            exact ho
          · rw [if_neg hsf] at hp
            cases h1 : seval n .plain false first env st with
            | error err => rw [h1] at hp; simp at hp
            | ok q =>
              obtain ⟨q1, q2⟩ := q
              rw [h1] at hp
              simp only [exceptBind_ok] at hp
              rcases q1 with v | ⟨se, senv⟩
              on_goal 2 => dsimp only at hp; simp at hp
              dsimp only at hp
              by_cases hpv : isProcV v = true
              · rw [if_pos hpv] at hp
                obtain ⟨F1, hF1⟩ := (ih n (by omega)).seval_false first env st (.val v, q2) h1
                obtain ⟨w, hval, out, hlk, F2, hF2⟩ :=
                  (ih n (by omega)).callF v rest env q2 r st1 hp
                refine ⟨w, hval, out, OLink_mono (by omega) hlk, max F1 F2 + 1,
                  fun g hg => ?_⟩
                obtain ⟨h, rfl⟩ : ∃ h, g = h + 1 := ⟨g - 1, by omega⟩
                have e1 : seval h Mode.opt false first env st = Except.ok (Res.val v, q2) :=
                  hF1 h (by omega)
                have ho := hF2 h (by omega)
                simp only [dispatch]
                rw [if_neg (by simp [hl]), if_neg hsf, e1]
                simp only [exceptBind_ok]
                rw [if_pos hpv]
                exact ho
              · rw [if_neg hpv] at hp; simp at hp
        · rw [if_pos (by revert hl; cases isListV (SVal.pair first rest) <;> simp)] at hp
          simp at hp
      all_goals simp [dispatch, isListV] at hp
  have htram : ∀ e env st v st1, dispatch f .plain e env st = .ok (.val v, st1) →
      ∃ F, ∀ g, F ≤ g → tramp g (.suspend e env) st = .ok (.val v, st1) := by
    intro e env st v st1 hp
    obtain ⟨w, hval, out, hlk, F1, hF1⟩ := hdisp e env st (.val v) st1 hp
    replace hval : v = w := by simpa using hval
    subst hval
    rcases hlk with hout | ⟨e2, env2, f2, hsusp, hflt, hdisp2⟩
    · refine ⟨F1 + 2, fun g hg => ?_⟩
      obtain ⟨h, rfl⟩ : ∃ h, g = h + 1 := ⟨g - 1, by omega⟩
      have ho := hF1 h (by omega)
      simp only [tramp, ho, exceptBind_ok, hout]
      obtain ⟨h2, rfl⟩ : ∃ h2, h = h2 + 1 := ⟨h - 1, by omega⟩
      simp [tramp]
    · obtain ⟨F2, hF2⟩ := (ih f2 (by omega)).tram e2 env2 out.2 v st1 hdisp2
      refine ⟨max F1 F2 + 1, fun g hg => ?_⟩
      obtain ⟨h, rfl⟩ : ∃ h, g = h + 1 := ⟨g - 1, by omega⟩
      have ho := hF1 h (by omega)
      have ht := hF2 h (by omega)
      simp only [tramp, ho, exceptBind_ok]
      obtain ⟨out1, out2⟩ := out
      dsimp only at hsusp ht ⊢
      rw [hsusp]
      exact ht
  have hsevalF : ∀ e env st, SimExact f (fun n m => seval n m false e env st) := by
    intro e env st p hp
    rcases Nat.eq_zero_or_pos f with hf0 | hfpos
    · subst hf0; simp [seval] at hp
    · obtain ⟨n, rfl⟩ : ∃ n, f = n + 1 := ⟨f - 1, by omega⟩
      obtain ⟨p1, p2⟩ := p
      by_cases hsym : isSymbolV e = true
      · simp only [seval, hsym, if_true] at hp
        refine ⟨1, fun g hg => ?_⟩
        obtain ⟨h, rfl⟩ : ∃ h, g = h + 1 := ⟨g - 1, by omega⟩
        simp only [seval, hsym, if_true]
        exact hp
      · by_cases hse : selfEvaluating e = true
        · simp only [seval, hsym, Bool.false_eq_true, if_false, hse, if_true,
            Bool.not_eq_true] at hp
          refine ⟨1, fun g hg => ?_⟩
          obtain ⟨h, rfl⟩ : ∃ h, g = h + 1 := ⟨g - 1, by omega⟩
          simp only [seval, hsym, Bool.false_eq_true, if_false, hse, if_true, Bool.not_eq_true]
          exact hp
        · simp only [seval, hsym, hse, Bool.false_eq_true, if_false, Bool.not_eq_true] at hp
          obtain ⟨v, hval, out, hlk, F0, hF0⟩ := (ih n (by omega)).disp e env st p1 p2 hp
          subst hval
          obtain ⟨F1, hF1⟩ := (ih n (by omega)).tram e env st v p2 hp
          refine ⟨F1 + 1, fun g hg => ?_⟩
          obtain ⟨h, rfl⟩ : ∃ h, g = h + 1 := ⟨g - 1, by omega⟩
          have ht := hF1 h (by omega)
          simp only [seval, hsym, hse, Bool.false_eq_true, if_false, Bool.not_eq_true]
          exact ht
  have hsevalT : ∀ e env st, SimRun f (fun n m => seval n m true e env st) := by
    intro e env st r st1 hp
    rcases Nat.eq_zero_or_pos f with hf0 | hfpos
    · subst hf0; simp [seval] at hp
    · obtain ⟨n, rfl⟩ : ∃ n, f = n + 1 := ⟨f - 1, by omega⟩
      by_cases hsym : isSymbolV e = true
      · simp only [seval, hsym, if_true] at hp
        cases hl : lookup st env (symName e) with
        | error err => rw [hl] at hp; simp at hp
        | ok v =>
          rw [hl] at hp
          simp only [exceptMap_ok, Except.ok.injEq, Prod.mk.injEq] at hp
          refine ⟨v, hp.1.symm, (.val v, st), Or.inl (by rw [hp.2]), 1, fun g hg => ?_⟩
          obtain ⟨h, rfl⟩ : ∃ h, g = h + 1 := ⟨g - 1, by omega⟩
          simp only [seval, hsym, if_true, hl, exceptMap_ok]
      · by_cases hse : selfEvaluating e = true
        · simp only [seval, hsym, Bool.false_eq_true, if_false, hse, if_true, Bool.not_eq_true,
            Except.ok.injEq, Prod.mk.injEq] at hp
          refine ⟨e, hp.1.symm, (.val e, st), Or.inl (by rw [hp.2]), 1, fun g hg => ?_⟩
          obtain ⟨h, rfl⟩ : ∃ h, g = h + 1 := ⟨g - 1, by omega⟩
          simp [seval, hsym, hse]
        · simp only [seval, hsym, hse, Bool.false_eq_true, if_false, Bool.not_eq_true] at hp
          obtain ⟨v, hval, out, hlk, F0, hF0⟩ := (ih n (by omega)).disp e env st r st1 hp
          refine ⟨v, hval, (.suspend e env, st),
            Or.inr ⟨e, env, n, rfl, by omega, by rw [hval] at hp; exact hp⟩, 1,
            fun g hg => ?_⟩
          obtain ⟨h, rfl⟩ : ∃ h, g = h + 1 := ⟨g - 1, by omega⟩
          simp [seval, hsym, hse]
  exact ⟨hsevalF, hsevalT, hdisp, htram, hform, hdefine, hbegin, hall, hseq, hif, hand,
    handLoop, hor, horLoop, hcond, hcondLoop, hlet, hletFrame, hletLoop, hcall, hargs, happly⟩

end Scheme

namespace Scheme

/-- C10: whenever the plain recursive `scheme_eval` (the non-trampolined
definition, `tail` ignored) terminates with a value, the trampolined
`scheme_optimized_eval` called with `tail=False` — at sufficient fuel —
returns the identical value and store; and the module-level name
`scheme_eval` is, after line 516, definitionally the trampolined
evaluator, so every caller observes the trampolined behavior. -/
theorem c10_trampoline_refines_plain :
    (∀ f expr env st v st1,
       seval f .plain false expr env st = .ok (.val v, st1) →
       ∃ g, scheme_eval g false expr env st = .ok (.val v, st1))
    ∧ scheme_eval = fun n tail expr env st => seval n .opt tail expr env st := by
  constructor
  · intro f expr env st v st1 h
    obtain ⟨F, hF⟩ := (simAll f).seval_false expr env st (.val v, st1) h
    exact ⟨F, hF F (le_refl F)⟩
  · rfl

/-- C10 witness: a plain-mode evaluation of the literal `3` transfers to
the trampolined evaluator. -/
theorem c10_trampoline_refines_plain_witness :
    seval 1 .plain false (.num 3) 0 [] = .ok (.val (.num 3), [])
    ∧ ∃ g, scheme_eval g false (.num 3) 0 [] = .ok (.val (.num 3), []) := by
  refine ⟨by decide, ?_⟩
  exact c10_trampoline_refines_plain.1 1 (.num 3) 0 [] (.num 3) [] (by decide)

end Scheme
